import Mathlib

/-!
Verification of the mini-redis C sources (wire codec, glob matcher,
open-addressed hash table, command handlers) against their specification.

Bytes are modelled as `Nat` (the C `char` values, 0–255 where it matters),
byte strings as `List Nat`, and C `int64_t` arithmetic as `Int` with an
explicit two's-complement wrap `wrap64` applied where the C performs
64-bit arithmetic that may overflow.
-/

namespace MiniRedis

/-- Two's-complement wrap of an integer into the `int64_t` range
`[-2^63, 2^63)`.  Signed overflow in the C sources is modelled as the
wrap the hardware performs. -/
def wrap64 (x : Int) : Int := (x + 2 ^ 63) % 2 ^ 64 - 2 ^ 63

/-- ASCII bytes of a Lean string literal (used only to write concrete
test inputs compactly). -/
def strBytes (s : String) : List Nat := s.data.map Char.toNat

/-! ### Wire codec: `resp.c` -/

/-- `parse_line` of resp.c: scan `buf[i..len)` for the first CR LF pair,
returning the offset of the CR, or `none` when no pair is present. -/
def parseLineFrom (l : List Nat) (i : Nat) : Option Nat :=
  if h : i + 1 < l.length then
    if l.getD i 0 = 13 ∧ l.getD (i + 1) 0 = 10 then some i
    else parseLineFrom l (i + 1)
  else none
termination_by l.length - i

/-- Digit-accumulation loop of `parse_integer_value` (resp.c): each step
computes `result * 10 + digit` in `int64_t`, i.e. wrapped; a non-digit
byte aborts with failure.  There is no overflow check in the C source. -/
def pivGo : List Nat → Int → Option Int
  | [], r => some r
  | d :: t, r =>
    if 48 ≤ d ∧ d ≤ 57 then pivGo t (wrap64 (r * 10 + ((d : Int) - 48)))
    else none

/-- `parse_integer_value` of resp.c: optional single leading `-`, then
decimal digits accumulated in `int64_t`; empty input, an isolated `-`,
or any non-digit byte is a failure.  The final store is
`result * sign` in `int64_t`. -/
def parseIntegerValue (l : List Nat) : Option Int :=
  match l with
  | [] => none
  | b :: rest =>
    if b = 45 then
      if rest = [] then none
      else (pivGo rest 0).map fun r => wrap64 (r * (-1))
    else (pivGo l 0).map fun r => wrap64 (r * 1)

/-- The wire value type of resp.h (`resp_value_t`). -/
inductive RespValue where
  | simpleString (s : List Nat)
  | respError (s : List Nat)
  | integer (i : Int)
  | bulkString (s : List Nat)
  | nullBulk
  | array (elems : List RespValue)
deriving Repr

/-- Result of `resp_parse`: the C function returns `0` (need more data),
`-1` (malformed), or the positive number of bytes consumed together
with the decoded value. -/
inductive ParseResult where
  | needMore
  | malformed
  | parsed (v : RespValue) (n : Nat)
deriving Repr

/-- `parse_bulk_string` of resp.c; `l` starts just after the `$` byte.
The two nested length checks in the C source are equivalent to the
single test `len < line_len + 2 + slen + 2`. -/
def parseBulkString (l : List Nat) : ParseResult :=
  match parseLineFrom l 0 with
  | none => .needMore
  | some lineLen =>
    match parseIntegerValue (l.take lineLen) with
    | none => .malformed
    | some slen =>
      if slen = -1 then .parsed .nullBulk (1 + lineLen + 2)
      else if slen < 0 then .malformed
      else if l.length < lineLen + 2 + slen.toNat + 2 then .needMore
      else .parsed (.bulkString ((l.drop (lineLen + 2)).take slen.toNat))
        (1 + lineLen + 2 + slen.toNat + 2)

mutual

/-- `resp_parse` of resp.c: dispatch on the tag byte. -/
def respParse (l : List Nat) : ParseResult :=
  match l with
  | [] => .needMore
  | b :: rest =>
    if b = 43 ∨ b = 45 then
      match parseLineFrom rest 0 with
      | none => .needMore
      | some lineLen =>
        .parsed
          (if b = 43 then .simpleString (rest.take lineLen)
           else .respError (rest.take lineLen))
          (1 + lineLen + 2)
    else if b = 58 then
      match parseLineFrom rest 0 with
      | none => .needMore
      | some lineLen =>
        match parseIntegerValue (rest.take lineLen) with
        | none => .malformed
        | some v => .parsed (.integer v) (1 + lineLen + 2)
    else if b = 36 then parseBulkString rest
    else if b = 42 then parseArray (b :: rest)
    else .malformed
termination_by (l.length, 1)
decreasing_by
  exact Prod.Lex.right _ (by omega)

/-- `parse_array` of resp.c; `l` starts at the `*` byte. -/
def parseArray (l : List Nat) : ParseResult :=
  match l with
  | [] => .needMore
  | b :: rest =>
    match parseLineFrom rest 0 with
    | none => .needMore
    | some lineLen =>
      match parseIntegerValue (rest.take lineLen) with
      | none => .malformed
      | some count =>
        if count < 0 then .malformed
        else parseArrayElems count.toNat ((b :: rest).drop (1 + lineLen + 2))
          (1 + lineLen + 2) []
termination_by (l.length, 0)
decreasing_by
  apply Prod.Lex.left
  simp [List.length_drop]
  omega

/-- The element loop of `parse_array`: `consumed` tracks the offset in
the original buffer, `rest` is the not-yet-consumed suffix.  The C
checks `consumed >= len` (no bytes left) before each element, forwards
need-more and malformed results of the recursive `resp_parse`, and
accumulates elements. -/
def parseArrayElems (k : Nat) (rest : List Nat) (consumed : Nat)
    (acc : List RespValue) : ParseResult :=
  match k with
  | 0 => .parsed (.array acc.reverse) consumed
  | k' + 1 =>
    if hrest : rest.isEmpty then .needMore
    else
      match respParse rest with
      | .needMore => .needMore
      | .malformed => .malformed
      | .parsed v r =>
        if hr0 : r = 0 then .needMore
        else parseArrayElems k' (rest.drop r) (consumed + r) (v :: acc)
termination_by (rest.length, 2)
decreasing_by
  · exact Prod.Lex.right _ (by omega)
  · apply Prod.Lex.left
    have hne : rest ≠ [] := by simpa [List.isEmpty_iff] using hrest
    have hpos : 0 < rest.length := List.length_pos.2 hne
    simp [List.length_drop]
    omega

end

/-! ### Serializer: the `resp_write_*` functions of resp.c -/

/-- Digit loop for `natDec`; the fuel argument only drives structural
recursion and is always sufficient (`natDecAux_sufficient`). -/
def natDecAux : Nat → Nat → List Nat
  | 0, _ => []
  | fuel + 1, n =>
    if n < 10 then [48 + n] else natDecAux fuel (n / 10) ++ [48 + n % 10]

/-- ASCII decimal digits of a natural number (what `snprintf` with an
unsigned value, or a nonnegative signed value, produces). -/
def natDec (n : Nat) : List Nat := natDecAux (n + 1) n

theorem natDecAux_sufficient :
    ∀ fuel n, n < fuel → natDecAux fuel n = natDecAux (n + 1) n := by
  intro fuel
  induction fuel using Nat.strong_induction_on with
  | _ fuel ih =>
    intro n h
    match fuel, h with
    | f + 1, h =>
      show natDecAux (f + 1) n = natDecAux (n + 1) n
      rw [natDecAux, natDecAux]
      by_cases h10 : n < 10
      · rw [if_pos h10, if_pos h10]
      · rw [if_neg h10, if_neg h10]
        have e1 : natDecAux f (n / 10) = natDecAux (n / 10 + 1) (n / 10) :=
          ih f (by omega) (n / 10) (by omega)
        have e2 : natDecAux n (n / 10) = natDecAux (n / 10 + 1) (n / 10) :=
          ih n (by omega) (n / 10) (by omega)
        rw [e1, e2]

theorem natDec_eq (n : Nat) :
    natDec n = if n < 10 then [48 + n] else natDec (n / 10) ++ [48 + n % 10] := by
  show natDecAux (n + 1) n = _
  rw [natDecAux]
  by_cases h10 : n < 10
  · rw [if_pos h10, if_pos h10]
  · rw [if_neg h10, if_neg h10]
    rw [natDecAux_sufficient n (n / 10) (by omega)]
    rfl

/-- ASCII decimal of a signed integer (`snprintf` with `PRId64`). -/
def intDec (i : Int) : List Nat :=
  if i < 0 then 45 :: natDec i.natAbs else natDec i.toNat

mutual

/-- Bytes emitted for one wire value by the `resp_write_*` functions of
resp.c: `+s\r\n`, `-s\r\n`, `:d\r\n`, `$len\r\n<bytes>\r\n`, `$-1\r\n`,
and `*count\r\n` followed by the serialized elements. -/
def respSerialize : RespValue → List Nat
  | .simpleString s => 43 :: (s ++ [13, 10])
  | .respError s => 45 :: (s ++ [13, 10])
  | .integer i => 58 :: (intDec i ++ [13, 10])
  | .bulkString s => 36 :: (natDec s.length ++ [13, 10] ++ s ++ [13, 10])
  | .nullBulk => [36, 45, 49, 13, 10]
  | .array es => 42 :: (natDec es.length ++ [13, 10] ++ serializeList es)

/-- Concatenated serialization of a list of wire values. -/
def serializeList : List RespValue → List Nat
  | [] => []
  | v :: t => respSerialize v ++ serializeList t

end

mutual

/-- The wire values producible by the server's serializer: simple
strings and errors carry no CR or LF byte, integers are `int64_t`
values, bulk payload lengths and array element counts fit the C types
used to print them. -/
def producibleB : RespValue → Bool
  | .simpleString s => s.all fun b => b ≠ 13 && b ≠ 10
  | .respError s => s.all fun b => b ≠ 13 && b ≠ 10
  | .integer i => decide (-(2 ^ 63) ≤ i) && decide (i < 2 ^ 63)
  | .bulkString s => decide (s.length < 2 ^ 63)
  | .nullBulk => true
  | .array es => decide (es.length < 2 ^ 31) && producibleListB es

/-- All elements of a list are producible. -/
def producibleListB : List RespValue → Bool
  | [] => true
  | v :: t => producibleB v && producibleListB t

end

/-! ### Arithmetic facts about `wrap64` -/

theorem wrap64_eq_self {x : Int} (h1 : -(2 ^ 63) ≤ x) (h2 : x < 2 ^ 63) :
    wrap64 x = x := by
  unfold wrap64
  omega

theorem wrap64_congr {a b : Int} (h : a % 2 ^ 64 = b % 2 ^ 64) :
    wrap64 a = wrap64 b := by
  unfold wrap64
  omega

theorem wrap64_emod (a : Int) : wrap64 a % 2 ^ 64 = a % 2 ^ 64 := by
  unfold wrap64
  omega

/-! ### Facts about `parseLineFrom` -/

theorem parseLineFrom_eq (l : List Nat) (i : Nat) :
    parseLineFrom l i =
      if i + 1 < l.length then
        if l.getD i 0 = 13 ∧ l.getD (i + 1) 0 = 10 then some i
        else parseLineFrom l (i + 1)
      else none := by
  rw [parseLineFrom]
  by_cases h : i + 1 < l.length
  · rw [dif_pos h, if_pos h]
  · rw [dif_neg h, if_neg h]

theorem parseLineFrom_cons_succ (x : Nat) (xs : List Nat) (i : Nat) :
    parseLineFrom (x :: xs) (i + 1) = (parseLineFrom xs i).map (· + 1) := by
  rw [parseLineFrom_eq]
  conv_rhs => rw [parseLineFrom_eq]
  by_cases h : i + 1 < xs.length
  · have h' : i + 1 + 1 < (x :: xs).length := by simp; omega
    rw [if_pos h', if_pos h]
    simp only [List.getD_cons_succ]
    by_cases hc : xs.getD i 0 = 13 ∧ xs.getD (i + 1) 0 = 10
    · rw [if_pos hc, if_pos hc]
      rfl
    · rw [if_neg hc, if_neg hc]
      exact parseLineFrom_cons_succ x xs (i + 1)
  · have h' : ¬(i + 1 + 1 < (x :: xs).length) := by simp; omega
    rw [if_neg h', if_neg h]
    rfl
termination_by xs.length - i

theorem parseLineFrom_append (s t : List Nat) (hs : ∀ b ∈ s, b ≠ 13) :
    parseLineFrom (s ++ 13 :: 10 :: t) 0 = some s.length := by
  induction s with
  | nil =>
    rw [parseLineFrom_eq]
    have h : 0 + 1 < (List.nil ++ 13 :: 10 :: t : List Nat).length := by simp
    rw [if_pos h]
    simp
  | cons x s' ih =>
    rw [parseLineFrom_eq]
    have h : 0 + 1 < ((x :: s') ++ 13 :: 10 :: t).length := by simp
    rw [if_pos h]
    have hx : x ≠ 13 := hs x (by simp)
    have hcond : ¬(((x :: s') ++ 13 :: 10 :: t).getD 0 0 = 13 ∧
        ((x :: s') ++ 13 :: 10 :: t).getD (0 + 1) 0 = 10) := by
      simp only [List.cons_append, List.getD_cons_zero]
      intro hc
      exact hx hc.1
    rw [if_neg hcond]
    have hshape : ((x :: s') ++ 13 :: 10 :: t : List Nat) = x :: (s' ++ 13 :: 10 :: t) := by simp
    rw [hshape, parseLineFrom_cons_succ, ih (fun b hb => hs b (by simp [hb]))]
    simp

/-! ### Facts about `natDec`, `pivGo`, `parseIntegerValue` -/

theorem natDec_digits (n : Nat) : ∀ b ∈ natDec n, 48 ≤ b ∧ b ≤ 57 := by
  intro b hb
  rw [natDec_eq] at hb
  by_cases h : n < 10
  · rw [if_pos h] at hb
    simp at hb
    omega
  · rw [if_neg h] at hb
    rcases List.mem_append.1 hb with h1 | h2
    · exact natDec_digits (n / 10) b h1
    · simp at h2
      omega
termination_by n
decreasing_by simp_wf; omega

theorem natDec_ne_nil (n : Nat) : natDec n ≠ [] := by
  rw [natDec_eq]
  by_cases h : n < 10
  · rw [if_pos h]; simp
  · rw [if_neg h]; simp

theorem natDec_no13 (n : Nat) : ∀ b ∈ natDec n, b ≠ 13 := by
  intro b hb
  have := natDec_digits n b hb
  omega

theorem wrap64_natCast (m : Nat) (h : m < 2 ^ 63) : wrap64 (m : Int) = (m : Int) := by
  apply wrap64_eq_self
  · have : (0 : Int) ≤ (m : Int) := Int.natCast_nonneg m
    omega
  · exact_mod_cast h

theorem pivGo_append (a b : List Nat) (r r' : Int) (h : pivGo a r = some r') :
    pivGo (a ++ b) r = pivGo b r' := by
  induction a generalizing r with
  | nil =>
    rw [pivGo] at h
    cases h
    rfl
  | cons d t ih =>
    rw [pivGo] at h
    show pivGo (d :: (t ++ b)) r = _
    rw [pivGo]
    by_cases hd : 48 ≤ d ∧ d ≤ 57
    · rw [if_pos hd]
      rw [if_pos hd] at h
      exact ih _ h
    · rw [if_neg hd] at h
      cases h

theorem pivGo_natDec (n : Nat) (h : n ≤ 2 ^ 63) :
    pivGo (natDec n) 0 = some (wrap64 n) := by
  rw [natDec_eq]
  by_cases h10 : n < 10
  · rw [if_pos h10]
    have hd : 48 ≤ 48 + n ∧ 48 + n ≤ 57 := by omega
    rw [pivGo, if_pos hd, pivGo]
    have harg : (0 : Int) * 10 + (((48 + n : Nat) : Int) - 48) = (n : Int) := by
      push_cast
      ring
    rw [harg]
  · rw [if_neg h10]
    have hdiv : n / 10 ≤ 2 ^ 63 := by omega
    have hdiv' : n / 10 < 2 ^ 63 := by omega
    have hstep := pivGo_natDec (n / 10) hdiv
    rw [wrap64_natCast (n / 10) hdiv'] at hstep
    rw [pivGo_append _ _ _ _ hstep]
    have hd : 48 ≤ 48 + n % 10 ∧ 48 + n % 10 ≤ 57 := by omega
    rw [pivGo, if_pos hd, pivGo]
    have harg : ((n / 10 : Nat) : Int) * 10 + (((48 + n % 10 : Nat) : Int) - 48) = (n : Int) := by
      push_cast
      omega
    rw [harg]
termination_by n
decreasing_by simp_wf; omega

theorem parseIntegerValue_natDec (n : Nat) (h : n < 2 ^ 63) :
    parseIntegerValue (natDec n) = some (n : Int) := by
  obtain ⟨b, rest, hbr⟩ := List.exists_cons_of_ne_nil (natDec_ne_nil n)
  have hb : 48 ≤ b ∧ b ≤ 57 := natDec_digits n b (by rw [hbr]; simp)
  have hb45 : b ≠ 45 := by omega
  rw [hbr, parseIntegerValue, if_neg hb45, ← hbr, pivGo_natDec n (by omega)]
  rw [wrap64_natCast n h]
  rw [Option.map_some']
  rw [mul_one, wrap64_natCast n h]

theorem parseIntegerValue_intDec (i : Int) (h1 : -(2 ^ 63) ≤ i) (h2 : i < 2 ^ 63) :
    parseIntegerValue (intDec i) = some i := by
  unfold intDec
  by_cases hneg : i < 0
  · rw [if_pos hneg]
    rw [parseIntegerValue]
    rw [if_pos rfl, if_neg (natDec_ne_nil i.natAbs)]
    have habs : i.natAbs ≤ 2 ^ 63 := by omega
    rw [pivGo_natDec i.natAbs habs]
    rw [Option.map_some']
    have hmod : (wrap64 i.natAbs * (-1)) % 2 ^ 64 = i % 2 ^ 64 := by
      have hw := wrap64_emod (i.natAbs : Int)
      have habs' : (i.natAbs : Int) = -i := by omega
      omega
    have hcg : wrap64 (wrap64 (i.natAbs : Int) * (-1)) = wrap64 i := wrap64_congr hmod
    rw [hcg, wrap64_eq_self h1 h2]
  · rw [if_neg hneg]
    have hcast : ((i.toNat : Nat) : Int) = i := by omega
    rw [parseIntegerValue_natDec i.toNat (by omega), hcast]

/-! ### Round-trip: serializer output parses back (claim C1) -/

theorem respValue_ind (P : RespValue → Prop)
    (h1 : ∀ s, P (.simpleString s)) (h2 : ∀ s, P (.respError s))
    (h3 : ∀ i, P (.integer i)) (h4 : ∀ s, P (.bulkString s))
    (h5 : P .nullBulk)
    (h6 : ∀ es, (∀ v ∈ es, P v) → P (.array es)) :
    ∀ v, P v
  | .simpleString s => h1 s
  | .respError s => h2 s
  | .integer i => h3 i
  | .bulkString s => h4 s
  | .nullBulk => h5
  | .array es =>
    h6 es fun v hv => respValue_ind P h1 h2 h3 h4 h5 h6 v
termination_by v => sizeOf v
decreasing_by
  have hlt := List.sizeOf_lt_of_mem hv
  simp
  omega

theorem respSerialize_ne_nil (v : RespValue) : respSerialize v ≠ [] := by
  cases v <;> simp [respSerialize]

theorem intDec_no13 (i : Int) : ∀ b ∈ intDec i, b ≠ 13 := by
  intro b hb
  unfold intDec at hb
  by_cases hneg : i < 0
  · rw [if_pos hneg] at hb
    rcases List.mem_cons.1 hb with h | h
    · omega
    · exact natDec_no13 _ b h
  · rw [if_neg hneg] at hb
    exact natDec_no13 _ b hb

theorem producibleListB_mem (es : List RespValue) (h : producibleListB es = true) :
    ∀ v ∈ es, producibleB v = true := by
  induction es with
  | nil => intro v hv; cases hv
  | cons w es' ih =>
    rw [producibleListB, Bool.and_eq_true] at h
    intro v hv
    rcases List.mem_cons.1 hv with h1 | h2
    · rw [h1]; exact h.1
    · exact ih h.2 v h2

theorem parseArrayElems_serialize (es : List RespValue)
    (ih : ∀ v ∈ es, ∀ t, respParse (respSerialize v ++ t) =
      .parsed v (respSerialize v).length) :
    ∀ t c acc, parseArrayElems es.length (serializeList es ++ t) c acc =
      .parsed (.array (acc.reverse ++ es)) (c + (serializeList es).length) := by
  induction es with
  | nil =>
    intro t c acc
    show parseArrayElems 0 _ c acc = _
    rw [parseArrayElems]
    simp [serializeList]
  | cons v es' ihl =>
    intro t c acc
    have hv := ih v (List.mem_cons_self v es')
    have hne : respSerialize v ≠ [] := respSerialize_ne_nil v
    have hshape : serializeList (v :: es') ++ t =
        respSerialize v ++ (serializeList es' ++ t) := by
      simp [serializeList]
    show parseArrayElems (es'.length + 1) (serializeList (v :: es') ++ t) c acc = _
    rw [hshape, parseArrayElems]
    have hempty : ¬((respSerialize v ++ (serializeList es' ++ t)).isEmpty = true) := by
      simp [List.isEmpty_iff, hne]
    rw [dif_neg hempty, hv (serializeList es' ++ t)]
    have hL : (respSerialize v).length ≠ 0 := by
      simpa [List.length_eq_zero] using hne
    show (if _hr : (respSerialize v).length = 0 then ParseResult.needMore
      else parseArrayElems es'.length
        ((respSerialize v ++ (serializeList es' ++ t)).drop (respSerialize v).length)
        (c + (respSerialize v).length) (v :: acc)) = _
    rw [dif_neg hL, List.drop_left,
      ihl (fun w hw => ih w (List.mem_cons_of_mem v hw)) t]
    have hacc : (v :: acc).reverse ++ es' = acc.reverse ++ (v :: es') := by
      simp
    rw [hacc]
    have hlen : c + (respSerialize v).length + (serializeList es').length =
        c + (serializeList (v :: es')).length := by
      simp only [serializeList, List.length_append]
      omega
    rw [hlen]

theorem respParse_serialize_append :
    ∀ v, producibleB v = true → ∀ t, respParse (respSerialize v ++ t) =
      .parsed v (respSerialize v).length := by
  apply respValue_ind
    (P := fun v => producibleB v = true → ∀ t, respParse (respSerialize v ++ t) =
      .parsed v (respSerialize v).length)
  case h1 =>
    intro s hp t
    simp only [producibleB, List.all_eq_true, Bool.and_eq_true, decide_eq_true_eq] at hp
    have hs13 : ∀ b ∈ s, b ≠ 13 := fun b hb => (hp b hb).1
    show respParse ((43 :: (s ++ [13, 10])) ++ t) = _
    have hshape : (43 :: (s ++ [13, 10])) ++ t = 43 :: (s ++ 13 :: 10 :: t) := by simp
    rw [hshape, respParse]
    rw [if_pos (Or.inl rfl), parseLineFrom_append s t hs13]
    show ParseResult.parsed
        (if (43 : Nat) = 43 then RespValue.simpleString ((s ++ 13 :: 10 :: t).take s.length)
         else RespValue.respError ((s ++ 13 :: 10 :: t).take s.length))
        (1 + s.length + 2) = _
    rw [if_pos rfl, List.take_left]
    have hlen : (respSerialize (RespValue.simpleString s)).length = 1 + s.length + 2 := by
      simp only [respSerialize, List.length_cons, List.length_append, List.length_nil]
      omega
    rw [hlen]
  case h2 =>
    intro s hp t
    simp only [producibleB, List.all_eq_true, Bool.and_eq_true, decide_eq_true_eq] at hp
    have hs13 : ∀ b ∈ s, b ≠ 13 := fun b hb => (hp b hb).1
    show respParse ((45 :: (s ++ [13, 10])) ++ t) = _
    have hshape : (45 :: (s ++ [13, 10])) ++ t = 45 :: (s ++ 13 :: 10 :: t) := by simp
    rw [hshape, respParse]
    rw [if_pos (Or.inr rfl), parseLineFrom_append s t hs13]
    show ParseResult.parsed
        (if (45 : Nat) = 43 then RespValue.simpleString ((s ++ 13 :: 10 :: t).take s.length)
         else RespValue.respError ((s ++ 13 :: 10 :: t).take s.length))
        (1 + s.length + 2) = _
    rw [if_neg (by norm_num), List.take_left]
    have hlen : (respSerialize (RespValue.respError s)).length = 1 + s.length + 2 := by
      simp only [respSerialize, List.length_cons, List.length_append, List.length_nil]
      omega
    rw [hlen]
  case h3 =>
    intro i hp t
    simp only [producibleB, Bool.and_eq_true, decide_eq_true_eq] at hp
    show respParse ((58 :: (intDec i ++ [13, 10])) ++ t) = _
    have hshape : (58 :: (intDec i ++ [13, 10])) ++ t = 58 :: (intDec i ++ 13 :: 10 :: t) := by
      simp
    rw [hshape, respParse]
    rw [if_neg (by norm_num), if_pos rfl,
      parseLineFrom_append (intDec i) t (intDec_no13 i)]
    show (match parseIntegerValue ((intDec i ++ 13 :: 10 :: t).take (intDec i).length) with
      | none => ParseResult.malformed
      | some v => ParseResult.parsed (.integer v) (1 + (intDec i).length + 2)) = _
    rw [List.take_left, parseIntegerValue_intDec i hp.1 hp.2]
    have hlen : (respSerialize (RespValue.integer i)).length = 1 + (intDec i).length + 2 := by
      simp only [respSerialize, List.length_cons, List.length_append, List.length_nil]
      omega
    rw [hlen]
  case h4 =>
    intro s hp t
    simp only [producibleB, decide_eq_true_eq] at hp
    show respParse ((36 :: (natDec s.length ++ [13, 10] ++ s ++ [13, 10])) ++ t) = _
    have hshape : (36 :: (natDec s.length ++ [13, 10] ++ s ++ [13, 10])) ++ t =
        36 :: (natDec s.length ++ 13 :: 10 :: (s ++ 13 :: 10 :: t)) := by
      simp
    rw [hshape, respParse]
    rw [if_neg (by norm_num), if_neg (by norm_num), if_pos rfl]
    rw [parseBulkString]
    simp only [parseLineFrom_append _ _ (natDec_no13 s.length)]
    simp only [List.take_left, parseIntegerValue_natDec s.length hp]
    have h1 : ¬((s.length : Int) = -1) := by omega
    have h2 : ¬((s.length : Int) < 0) := by omega
    rw [if_neg h1, if_neg h2]
    have htn : ((s.length : Int)).toNat = s.length := Int.toNat_natCast s.length
    rw [htn]
    have hlenlist : (natDec s.length ++ 13 :: 10 :: (s ++ 13 :: 10 :: t)).length =
        (natDec s.length).length + 2 + s.length + 2 + t.length := by
      simp
      omega
    have hnolt : ¬((natDec s.length ++ 13 :: 10 :: (s ++ 13 :: 10 :: t)).length <
        (natDec s.length).length + 2 + s.length + 2) := by
      rw [hlenlist]
      omega
    rw [if_neg hnolt]
    have hdrop : (natDec s.length ++ 13 :: 10 :: (s ++ 13 :: 10 :: t)).drop
        ((natDec s.length).length + 2) = s ++ 13 :: 10 :: t := by
      rw [List.drop_append]
      rfl
    rw [hdrop, List.take_left]
    have hlen : (respSerialize (RespValue.bulkString s)).length =
        1 + (natDec s.length).length + 2 + s.length + 2 := by
      simp only [respSerialize, List.length_cons, List.length_append, List.length_nil]
      omega
    rw [hlen]
  case h5 =>
    intro _ t
    show respParse ([36, 45, 49, 13, 10] ++ t) = _
    have hshape : ([36, 45, 49, 13, 10] : List Nat) ++ t = 36 :: (45 :: 49 :: 13 :: 10 :: t) := by
      simp
    rw [hshape, respParse]
    rw [if_neg (by norm_num), if_neg (by norm_num), if_pos rfl]
    rw [parseBulkString]
    have hline : parseLineFrom (45 :: 49 :: 13 :: 10 :: t) 0 = some 2 :=
      parseLineFrom_append [45, 49] t (by norm_num)
    have htake : (45 :: 49 :: 13 :: 10 :: t).take 2 = [45, 49] := rfl
    have hpi : parseIntegerValue [45, 49] = some (-1) := by decide
    simp only [hline, htake, hpi]
    rw [if_pos trivial]
    rfl
  case h6 =>
    intro es ih hp t
    simp only [producibleB, Bool.and_eq_true, decide_eq_true_eq] at hp
    have ih' : ∀ v ∈ es, ∀ t', respParse (respSerialize v ++ t') =
        .parsed v (respSerialize v).length := by
      intro v hv t'
      exact ih v hv (by
        have := (producibleListB_mem es hp.2 v hv)
        exact this) t'
    show respParse ((42 :: (natDec es.length ++ [13, 10] ++ serializeList es)) ++ t) = _
    have hshape : (42 :: (natDec es.length ++ [13, 10] ++ serializeList es)) ++ t =
        42 :: (natDec es.length ++ 13 :: 10 :: (serializeList es ++ t)) := by
      simp
    rw [hshape, respParse]
    rw [if_neg (by norm_num), if_neg (by norm_num), if_neg (by norm_num), if_pos rfl]
    rw [parseArray]
    simp only [parseLineFrom_append _ _ (natDec_no13 es.length)]
    simp only [List.take_left, parseIntegerValue_natDec es.length
      (by omega : es.length < 2 ^ 63)]
    have hc : ¬((es.length : Int) < 0) := by omega
    rw [if_neg hc]
    have htn : ((es.length : Int)).toNat = es.length := Int.toNat_natCast es.length
    rw [htn]
    have hdrop : (42 :: (natDec es.length ++ 13 :: 10 :: (serializeList es ++ t))).drop
        (1 + (natDec es.length).length + 2) = serializeList es ++ t := by
      have h1 : 1 + (natDec es.length).length + 2 = ((natDec es.length).length + 2) + 1 := by
        omega
      rw [h1, List.drop_succ_cons, List.drop_append]
      rfl
    rw [hdrop, parseArrayElems_serialize es ih' t (1 + (natDec es.length).length + 2) []]
    have hacc : (([] : List RespValue).reverse ++ es) = es := by simp
    rw [hacc]
    have hlen : (respSerialize (RespValue.array es)).length =
        1 + (natDec es.length).length + 2 + (serializeList es).length := by
      simp only [respSerialize, List.length_cons, List.length_append, List.length_nil]
      omega
    rw [hlen]

/-- **C1**: for every wire value producible by the server's serializer
(simple string and error without CR/LF, integer, bulk string, null
bulk, or array of such values), serializing and then parsing yields the
value back, with the parser consuming exactly the number of bytes the
serializer emitted. -/
theorem c1_serialize_then_parse (v : RespValue) (h : producibleB v = true) :
    respParse (respSerialize v) = .parsed v (respSerialize v).length := by
  have hax := respParse_serialize_append v h []
  simpa using hax

/-- Witness for C1 at a concrete producible value. -/
theorem c1_serialize_then_parse_witness :
    producibleB (RespValue.array [.simpleString [79, 75], .integer (-12),
      .bulkString [0, 13, 10], .nullBulk]) = true ∧
    respParse (respSerialize (RespValue.array [.simpleString [79, 75], .integer (-12),
      .bulkString [0, 13, 10], .nullBulk])) =
      .parsed (RespValue.array [.simpleString [79, 75], .integer (-12),
        .bulkString [0, 13, 10], .nullBulk])
        (respSerialize (RespValue.array [.simpleString [79, 75], .integer (-12),
          .bulkString [0, 13, 10], .nullBulk])).length :=
  ⟨by decide, c1_serialize_then_parse _ (by decide)⟩

/-! ### Integer fields and `Malformed` (claim C5) -/

/-- A bad ASCII integer field in the sense of the specification: empty,
a bare `-`, or a byte other than a digit after the optional single
leading `-`. -/
def intFieldBad (l : List Nat) : Bool :=
  match l with
  | [] => true
  | b :: rest =>
    if b = 45 then rest.isEmpty || rest.any fun d => ¬(48 ≤ d ∧ d ≤ 57)
    else (b :: rest).any fun d => ¬(48 ≤ d ∧ d ≤ 57)

theorem pivGo_eq_none_iff (l : List Nat) (r : Int) :
    pivGo l r = none ↔ (l.any fun d => ¬(48 ≤ d ∧ d ≤ 57)) = true := by
  induction l generalizing r with
  | nil => simp [pivGo]
  | cons d t ih =>
    rw [pivGo]
    by_cases hd : 48 ≤ d ∧ d ≤ 57
    · rw [if_pos hd]
      simp [ih, hd]
    · rw [if_neg hd]
      simp
      exact Or.inl (by omega)

theorem parseIntegerValue_eq_none_iff (l : List Nat) :
    parseIntegerValue l = none ↔ intFieldBad l = true := by
  match l with
  | [] => simp [parseIntegerValue, intFieldBad]
  | b :: rest =>
    rw [parseIntegerValue, intFieldBad]
    by_cases hb : b = 45
    · rw [if_pos hb, if_pos hb]
      by_cases hre : rest = []
      · simp [hre]
      · rw [if_neg hre]
        simp [Option.map_eq_none', pivGo_eq_none_iff, List.isEmpty_iff, hre]
    · rw [if_neg hb, if_neg hb]
      simp [Option.map_eq_none', pivGo_eq_none_iff]

/-- **C5** (amended): the parser returns `Malformed` for every frame
whose ASCII integer field (after `:`, `$` or `*`, with its terminating
CRLF available) is empty or contains a byte other than a digit after an
optional single leading `-`.  (Overflowing fields are *not* rejected:
the C accumulates into `int64_t` with no overflow check, so they wrap
modulo 2^64 — see the counterexample.) -/
theorem c5_bad_integer_field_malformed (tag : Nat) (field rest : List Nat)
    (htag : tag = 58 ∨ tag = 36 ∨ tag = 42)
    (hfield : ∀ b ∈ field, b ≠ 13)
    (hbad : intFieldBad field = true) :
    respParse (tag :: (field ++ 13 :: 10 :: rest)) = .malformed := by
  have hline := parseLineFrom_append field rest hfield
  have hnone : parseIntegerValue field = none :=
    (parseIntegerValue_eq_none_iff field).2 hbad
  rcases htag with h | h | h <;> subst h
  · rw [respParse, if_neg (by norm_num), if_pos rfl]
    simp only [hline, List.take_left, hnone]
  · rw [respParse, if_neg (by norm_num), if_neg (by norm_num), if_pos rfl,
      parseBulkString]
    simp only [hline, List.take_left, hnone]
  · rw [respParse, if_neg (by norm_num), if_neg (by norm_num), if_neg (by norm_num),
      if_pos rfl, parseArray]
    simp only [hline, List.take_left, hnone]

/-- Witness for C5 (amended) at the concrete frame `:-\r\n`. -/
theorem c5_bad_integer_field_malformed_witness :
    (∀ b ∈ ([45] : List Nat), b ≠ 13) ∧ intFieldBad [45] = true ∧
    respParse (58 :: ([45] ++ 13 :: 10 :: [])) = .malformed :=
  ⟨by decide, by decide,
    c5_bad_integer_field_malformed 58 [45] [] (Or.inl rfl) (by decide) (by decide)⟩

set_option maxRecDepth 8000 in
/-- Counterexample to C5 as stated: the frame `:9223372036854775808\r\n`
carries an integer field overflowing `int64_t` (its value is `2^63`),
yet the parser accepts it, wrapping to `-2^63`, instead of returning
`Malformed`. -/
theorem c5_counterexample :
    respParse [58, 57, 50, 50, 51, 51, 55, 50, 48, 51, 54, 56, 53, 52, 55,
      55, 53, 56, 48, 56, 13, 10] =
      .parsed (.integer (-9223372036854775808)) 22 := by
  have hline : parseLineFrom [57, 50, 50, 51, 51, 55, 50, 48, 51, 54, 56,
      53, 52, 55, 55, 53, 56, 48, 56, 13, 10] 0 = some 19 := by
    have hap := parseLineFrom_append [57, 50, 50, 51, 51, 55, 50, 48, 51,
      54, 56, 53, 52, 55, 55, 53, 56, 48, 56] [] (by decide)
    simpa using hap
  rw [respParse, if_neg (by norm_num), if_pos rfl]
  simp only [hline]
  have htake : ([57, 50, 50, 51, 51, 55, 50, 48, 51, 54, 56, 53, 52, 55,
      55, 53, 56, 48, 56, 13, 10] : List Nat).take 19 =
      [57, 50, 50, 51, 51, 55, 50, 48, 51, 54, 56, 53, 52, 55, 55, 53, 56, 48, 56] := rfl
  have hint : parseIntegerValue [57, 50, 50, 51, 51, 55, 50, 48, 51, 54,
      56, 53, 52, 55, 55, 53, 56, 48, 56] = some (-9223372036854775808) := by decide
  simp only [htake, hint]

/-! ### Restartability: extension stability of the parser (claim C2) -/

theorem parseLineFrom_bound (l : List Nat) (i k : Nat)
    (h : parseLineFrom l i = some k) : i ≤ k ∧ k + 1 < l.length := by
  rw [parseLineFrom_eq] at h
  by_cases h1 : i + 1 < l.length
  · rw [if_pos h1] at h
    by_cases hc : l.getD i 0 = 13 ∧ l.getD (i + 1) 0 = 10
    · rw [if_pos hc] at h
      cases h
      exact ⟨le_refl _, h1⟩
    · rw [if_neg hc] at h
      have := parseLineFrom_bound l (i + 1) k h
      omega
  · rw [if_neg h1] at h
    cases h
termination_by l.length - i

theorem parseLineFrom_append_stable (l S : List Nat) (i k : Nat)
    (h : parseLineFrom l i = some k) : parseLineFrom (l ++ S) i = some k := by
  rw [parseLineFrom_eq] at h
  rw [parseLineFrom_eq]
  by_cases h1 : i + 1 < l.length
  · have h1' : i + 1 < (l ++ S).length := by
      simp only [List.length_append]
      omega
    rw [if_pos h1] at h
    rw [if_pos h1']
    have hg0 : (l ++ S).getD i 0 = l.getD i 0 := List.getD_append _ _ _ _ (by omega)
    have hg1 : (l ++ S).getD (i + 1) 0 = l.getD (i + 1) 0 :=
      List.getD_append _ _ _ _ (by omega)
    rw [hg0, hg1]
    by_cases hc : l.getD i 0 = 13 ∧ l.getD (i + 1) 0 = 10
    · rw [if_pos hc] at h
      rw [if_pos hc]
      exact h
    · rw [if_neg hc] at h
      rw [if_neg hc]
      exact parseLineFrom_append_stable l S (i + 1) k h
  · rw [if_neg h1] at h
    cases h
termination_by l.length - i

theorem parseBulkString_mono (l S : List Nat) :
    (parseBulkString l = .malformed → parseBulkString (l ++ S) = .malformed) ∧
    (∀ v m, parseBulkString l = .parsed v m →
      m ≤ 1 + l.length ∧ parseBulkString (l ++ S) = .parsed v m) := by
  cases hline : parseLineFrom l 0 with
  | none =>
    constructor
    · intro h
      simp [parseBulkString, hline] at h
    · intro v m h
      simp [parseBulkString, hline] at h
  | some L =>
    have hb := parseLineFrom_bound l 0 L hline
    have hstab := parseLineFrom_append_stable l S 0 L hline
    have htake : (l ++ S).take L = l.take L := List.take_append_of_le_length (by omega)
    cases hint : parseIntegerValue (l.take L) with
    | none =>
      constructor
      · intro _
        simp [parseBulkString, hstab, htake, hint]
      · intro v m h
        simp [parseBulkString, hline, hint] at h
    | some slen =>
      by_cases hm1 : slen = -1
      · subst hm1
        constructor
        · intro h
          simp [parseBulkString, hline, hint] at h
        · intro v m h
          simp [parseBulkString, hline, hint] at h
          refine ⟨by omega, ?_⟩
          simp [parseBulkString, hstab, htake, hint, ← h.1, ← h.2]
      · by_cases hneg : slen < 0
        · constructor
          · intro _
            simp [parseBulkString, hstab, htake, hint, hm1, hneg]
          · intro v m h
            simp [parseBulkString, hline, hint, hm1, hneg] at h
        · by_cases havail : l.length < L + 2 + slen.toNat + 2
          · constructor
            · intro h
              simp [parseBulkString, hline, hint, hm1, hneg, havail] at h
            · intro v m h
              simp [parseBulkString, hline, hint, hm1, hneg, havail] at h
          · have havail' : ¬((l ++ S).length < L + 2 + slen.toNat + 2) := by
              simp only [List.length_append]
              omega
            have hdt : ((l ++ S).drop (L + 2)).take slen.toNat =
                (l.drop (L + 2)).take slen.toNat := by
              rw [List.drop_append_of_le_length (by omega),
                List.take_append_of_le_length (by simp [List.length_drop]; omega)]
            constructor
            · intro h
              simp [parseBulkString, hline, hint, hm1, hneg, havail] at h
            · intro v m h
              simp [parseBulkString, hline, hint, hm1, hneg, havail] at h
              refine ⟨by omega, ?_⟩
              simp [parseBulkString, hstab, htake, hint, hm1, hneg, havail', hdt,
                ← h.1, ← h.2]
              omega

mutual

/-- Extension stability of `resp_parse`: a malformed buffer stays
malformed and a complete parse keeps its value and consumed count when
more bytes are appended; a complete parse never consumes more bytes
than are present. -/
theorem respParse_mono (P S : List Nat) :
    (respParse P = .malformed → respParse (P ++ S) = .malformed) ∧
    (∀ v m, respParse P = .parsed v m →
      m ≤ P.length ∧ respParse (P ++ S) = .parsed v m) := by
  match P with
  | [] =>
    constructor
    · intro h
      simp [respParse] at h
    · intro v m h
      simp [respParse] at h
  | b :: rest =>
    have hshape : ((b :: rest) ++ S) = b :: (rest ++ S) := by simp
    by_cases hb1 : b = 43 ∨ b = 45
    · cases hline : parseLineFrom rest 0 with
      | none =>
        constructor
        · intro h
          rw [respParse, if_pos hb1] at h
          simp [hline] at h
        · intro v m h
          rw [respParse, if_pos hb1] at h
          simp [hline] at h
      | some L =>
        have hbnd := parseLineFrom_bound rest 0 L hline
        have hstab := parseLineFrom_append_stable rest S 0 L hline
        have htake : (rest ++ S).take L = rest.take L :=
          List.take_append_of_le_length (by omega)
        constructor
        · intro h
          rw [respParse, if_pos hb1] at h
          simp [hline] at h
        · intro v m h
          rw [respParse, if_pos hb1] at h
          simp only [hline] at h
          injection h with hv hm
          rw [hshape, respParse, if_pos hb1]
          simp only [hstab, htake]
          rw [hv, hm]
          exact ⟨by simp; omega, rfl⟩
    · by_cases hb58 : b = 58
      · subst hb58
        cases hline : parseLineFrom rest 0 with
        | none =>
          constructor
          · intro h
            rw [respParse, if_neg hb1, if_pos rfl] at h
            simp [hline] at h
          · intro v m h
            rw [respParse, if_neg hb1, if_pos rfl] at h
            simp [hline] at h
        | some L =>
          have hbnd := parseLineFrom_bound rest 0 L hline
          have hstab := parseLineFrom_append_stable rest S 0 L hline
          have htake : (rest ++ S).take L = rest.take L :=
            List.take_append_of_le_length (by omega)
          cases hint : parseIntegerValue (rest.take L) with
          | none =>
            constructor
            · intro _
              rw [hshape, respParse, if_neg hb1, if_pos rfl]
              simp only [hstab, htake, hint]
            · intro v m h
              rw [respParse, if_neg hb1, if_pos rfl] at h
              simp [hline, hint] at h
          | some iv =>
            constructor
            · intro h
              rw [respParse, if_neg hb1, if_pos rfl] at h
              simp [hline, hint] at h
            · intro v m h
              rw [respParse, if_neg hb1, if_pos rfl] at h
              simp only [hline, hint] at h
              injection h with hv hm
              rw [hshape, respParse, if_neg hb1, if_pos rfl]
              simp only [hstab, htake, hint]
              rw [hv, hm]
              exact ⟨by simp; omega, rfl⟩
      · by_cases hb36 : b = 36
        · subst hb36
          have hmono := parseBulkString_mono rest S
          constructor
          · intro h
            rw [respParse, if_neg hb1, if_neg (by norm_num), if_pos rfl] at h
            rw [hshape, respParse, if_neg hb1, if_neg (by norm_num), if_pos rfl]
            exact hmono.1 h
          · intro v m h
            rw [respParse, if_neg hb1, if_neg (by norm_num), if_pos rfl] at h
            obtain ⟨hle, heq⟩ := hmono.2 v m h
            refine ⟨by simp; omega, ?_⟩
            rw [hshape, respParse, if_neg hb1, if_neg (by norm_num), if_pos rfl]
            exact heq
        · by_cases hb42 : b = 42
          · subst hb42
            cases hline : parseLineFrom rest 0 with
            | none =>
              constructor
              · intro h
                rw [respParse, if_neg hb1, if_neg (by norm_num), if_neg hb36,
                  if_pos rfl, parseArray] at h
                simp [hline] at h
              · intro v m h
                rw [respParse, if_neg hb1, if_neg (by norm_num), if_neg hb36,
                  if_pos rfl, parseArray] at h
                simp [hline] at h
            | some L =>
              have hbnd := parseLineFrom_bound rest 0 L hline
              have hstab := parseLineFrom_append_stable rest S 0 L hline
              have htake : (rest ++ S).take L = rest.take L :=
                List.take_append_of_le_length (by omega)
              cases hint : parseIntegerValue (rest.take L) with
              | none =>
                constructor
                · intro _
                  rw [hshape, respParse, if_neg hb1, if_neg (by norm_num),
                    if_neg hb36, if_pos rfl, parseArray]
                  simp only [hstab, htake, hint]
                · intro v m h
                  rw [respParse, if_neg hb1, if_neg (by norm_num), if_neg hb36,
                    if_pos rfl, parseArray] at h
                  simp [hline, hint] at h
              | some count =>
                by_cases hcn : count < 0
                · constructor
                  · intro _
                    rw [hshape, respParse, if_neg hb1, if_neg (by norm_num),
                      if_neg hb36, if_pos rfl, parseArray]
                    simp only [hstab, htake, hint]
                    rw [if_pos hcn]
                  · intro v m h
                    rw [respParse, if_neg hb1, if_neg (by norm_num), if_neg hb36,
                      if_pos rfl, parseArray] at h
                    simp [hline, hint, hcn] at h
                · have hdropS : (42 :: (rest ++ S)).drop (1 + L + 2) =
                      (42 :: rest).drop (1 + L + 2) ++ S := by
                    have he : (42 :: (rest ++ S)) = (42 :: rest) ++ S := by simp
                    rw [he, List.drop_append_of_le_length (by simp; omega)]
                  have hmono := parseArrayElems_mono count.toNat
                    ((42 :: rest).drop (1 + L + 2)) S (1 + L + 2) []
                  constructor
                  · intro h
                    rw [respParse, if_neg hb1, if_neg (by norm_num), if_neg hb36,
                      if_pos rfl, parseArray] at h
                    simp only [hline, hint] at h
                    rw [if_neg hcn] at h
                    rw [hshape, respParse, if_neg hb1, if_neg (by norm_num),
                      if_neg hb36, if_pos rfl, parseArray]
                    simp only [hstab, htake, hint]
                    rw [if_neg hcn, hdropS]
                    exact hmono.1 h
                  · intro v m h
                    rw [respParse, if_neg hb1, if_neg (by norm_num), if_neg hb36,
                      if_pos rfl, parseArray] at h
                    simp only [hline, hint] at h
                    rw [if_neg hcn] at h
                    obtain ⟨hle, heq⟩ := hmono.2 v m h
                    have hdl : ((42 :: rest).drop (1 + L + 2)).length =
                        (42 :: rest).length - (1 + L + 2) := List.length_drop _ _
                    rw [hdl] at hle
                    refine ⟨by simp at hle ⊢; omega, ?_⟩
                    rw [hshape, respParse, if_neg hb1, if_neg (by norm_num),
                      if_neg hb36, if_pos rfl, parseArray]
                    simp only [hstab, htake, hint]
                    rw [if_neg hcn, hdropS]
                    exact heq
          · constructor
            · intro _
              rw [hshape, respParse, if_neg hb1, if_neg hb58, if_neg hb36,
                if_neg hb42]
            · intro v m h
              rw [respParse, if_neg hb1, if_neg hb58, if_neg hb36, if_neg hb42] at h
              cases h
termination_by (P.length, 1)
decreasing_by
  apply Prod.Lex.left
  simp [List.length_drop]
  omega

/-- Extension stability of the array element loop. -/
theorem parseArrayElems_mono (k : Nat) (rest S : List Nat) (c : Nat)
    (acc : List RespValue) :
    (parseArrayElems k rest c acc = .malformed →
      parseArrayElems k (rest ++ S) c acc = .malformed) ∧
    (∀ v m, parseArrayElems k rest c acc = .parsed v m →
      m ≤ c + rest.length ∧ parseArrayElems k (rest ++ S) c acc = .parsed v m) := by
  match k with
  | 0 =>
    constructor
    · intro h
      rw [parseArrayElems] at h
      cases h
    · intro v m h
      rw [parseArrayElems] at h
      injection h with hv hm
      rw [parseArrayElems, hv, hm]
      exact ⟨by omega, rfl⟩
  | k' + 1 =>
    by_cases hre : rest.isEmpty
    · constructor
      · intro h
        rw [parseArrayElems, dif_pos hre] at h
        cases h
      · intro v m h
        rw [parseArrayElems, dif_pos hre] at h
        cases h
    · have hreS : ¬(rest ++ S).isEmpty = true := by
        simp [List.isEmpty_iff] at hre ⊢
        simp [hre]
      cases hp : respParse rest with
      | needMore =>
        constructor
        · intro h
          rw [parseArrayElems, dif_neg hre] at h
          simp [hp] at h
        · intro v m h
          rw [parseArrayElems, dif_neg hre] at h
          simp [hp] at h
      | malformed =>
        have hpS := (respParse_mono rest S).1 hp
        constructor
        · intro _
          rw [parseArrayElems, dif_neg hreS]
          simp only [hpS]
        · intro v m h
          rw [parseArrayElems, dif_neg hre] at h
          simp [hp] at h
      | parsed w r =>
        obtain ⟨hrle, hpS⟩ := (respParse_mono rest S).2 w r hp
        by_cases hr0 : r = 0
        · constructor
          · intro h
            rw [parseArrayElems, dif_neg hre] at h
            simp only [hp] at h
            rw [dif_pos hr0] at h
            cases h
          · intro v m h
            rw [parseArrayElems, dif_neg hre] at h
            simp only [hp] at h
            rw [dif_pos hr0] at h
            cases h
        · have hdropS : (rest ++ S).drop r = rest.drop r ++ S :=
            List.drop_append_of_le_length hrle
          have ihm := parseArrayElems_mono k' (rest.drop r) S (c + r) (w :: acc)
          constructor
          · intro h
            rw [parseArrayElems, dif_neg hre] at h
            simp only [hp] at h
            rw [dif_neg hr0] at h
            rw [parseArrayElems, dif_neg hreS]
            simp only [hpS]
            rw [dif_neg hr0, hdropS]
            exact ihm.1 h
          · intro v m h
            rw [parseArrayElems, dif_neg hre] at h
            simp only [hp] at h
            rw [dif_neg hr0] at h
            obtain ⟨hle, heq⟩ := ihm.2 v m h
            have hdl : (rest.drop r).length = rest.length - r := List.length_drop _ _
            refine ⟨by omega, ?_⟩
            rw [parseArrayElems, dif_neg hreS]
            simp only [hpS]
            rw [dif_neg hr0, hdropS]
            exact heq
termination_by (rest.length, 2)
decreasing_by
  · exact Prod.Lex.right _ (by omega)
  · exact Prod.Lex.right _ (by omega)
  · apply Prod.Lex.left
    have hne : rest ≠ [] := by simpa [List.isEmpty_iff] using hre
    have hpos : 0 < rest.length := List.length_pos.2 hne
    simp [List.length_drop]
    omega

end

/-- **C2**: restartability.  For every byte sequence `B` that parses as
one complete frame consuming exactly `|B|` bytes, and every split
`B = P ++ S`, parsing `P` alone returns NeedMore (or a complete parse
consuming at most `|P|` bytes), never Malformed, and parsing `P ++ S`
yields the same value and consumed count as parsing `B`. -/
theorem c2_restartable (B P S : List Nat) (v : RespValue)
    (hB : respParse B = .parsed v B.length) (hsplit : B = P ++ S) :
    (respParse P = .needMore ∨
      ∃ v' m, respParse P = .parsed v' m ∧ m ≤ P.length) ∧
    respParse (P ++ S) = .parsed v B.length := by
  constructor
  · cases hp : respParse P with
    | needMore => exact Or.inl rfl
    | malformed =>
      exfalso
      have hmal := (respParse_mono P S).1 hp
      rw [← hsplit, hB] at hmal
      cases hmal
    | parsed v' m =>
      exact Or.inr ⟨v', m, rfl, ((respParse_mono P S).2 v' m hp).1⟩
  · rw [← hsplit]
    exact hB

/-- Witness for C2: the request `*1\r\n$4\r\nPING\r\n` split after six
bytes. -/
theorem c2_restartable_witness :
    respParse ([42, 49, 13, 10, 36, 52] ++ [13, 10, 80, 73, 78, 71, 13, 10]) =
      .parsed (.array [.bulkString [80, 73, 78, 71]]) 14 ∧
    (respParse [42, 49, 13, 10, 36, 52] = .needMore ∨
      ∃ v' m, respParse [42, 49, 13, 10, 36, 52] = .parsed v' m ∧
        m ≤ ([42, 49, 13, 10, 36, 52] : List Nat).length) := by
  have hser : respSerialize (.array [.bulkString [80, 73, 78, 71]]) =
      [42, 49, 13, 10, 36, 52, 13, 10, 80, 73, 78, 71, 13, 10] := rfl
  have hB : respParse [42, 49, 13, 10, 36, 52, 13, 10, 80, 73, 78, 71, 13, 10] =
      .parsed (.array [.bulkString [80, 73, 78, 71]]) 14 := by
    have h := respParse_serialize_append
      (.array [.bulkString [80, 73, 78, 71]]) (by decide) []
    rw [hser] at h
    simpa using h
  have hc2 := c2_restartable
    [42, 49, 13, 10, 36, 52, 13, 10, 80, 73, 78, 71, 13, 10]
    [42, 49, 13, 10, 36, 52] [13, 10, 80, 73, 78, 71, 13, 10] _ hB rfl
  exact ⟨hc2.2, hc2.1⟩

/-! ### Glob matcher: `glob.c` (claim C8) -/

/-- The scanning loop of `match_char_class` (glob.c): `i` walks the
class body; a range `a-b` is recognized when a `-` follows with a byte
other than `]` after it; the loop stops at an unescaped `]` (a `]` in
first position is a literal member).  Returns the match result and the
updated pattern index; an unclosed class returns `false` with the
original index (the C leaves `*pi` untouched on that path). -/
def mccLoop (p : List Nat) (c : Nat) (piOrig : Nat) (negate : Bool)
    (i : Nat) (first matched : Bool) : Bool × Nat :=
  if h : i < p.length ∧ (p.getD i 0 ≠ 93 ∨ first) then
    let lo := p.getD i 0
    if i + 2 < p.length ∧ p.getD (i + 1) 0 = 45 ∧ p.getD (i + 2) 0 ≠ 93 then
      mccLoop p c piOrig negate (i + 3) false
        (matched || (lo ≤ c && c ≤ p.getD (i + 2) 0))
    else
      mccLoop p c piOrig negate (i + 1) false
        (matched || (lo ≤ c && c ≤ lo))
  else if i ≥ p.length then (false, piOrig)
  else ((if negate then !matched else matched), i + 1)
termination_by p.length - i
decreasing_by
  · omega
  · omega

/-- `match_char_class` of glob.c: skip the `[`, read an optional `!` or
`^` negation, then scan elements. -/
def matchCharClass (p : List Nat) (pi : Nat) (c : Nat) : Bool × Nat :=
  if pi + 1 ≥ p.length then (false, pi)
  else if p.getD (pi + 1) 0 = 33 ∨ p.getD (pi + 1) 0 = 94 then
    mccLoop p c pi true (pi + 2) true false
  else
    mccLoop p c pi false (pi + 1) true false

/-- Trailing-`*` consumption at the end of `glob_match`: skip `*` bytes
and succeed iff the pattern is exhausted. -/
def globConsumeStars (p : List Nat) (pi : Nat) : Bool :=
  if h : pi < p.length ∧ p.getD pi 0 = 42 then globConsumeStars p (pi + 1)
  else decide (pi = p.length)
termination_by p.length - pi
decreasing_by omega

/-- The backtrack record of `glob_match` is valid: the remembered
subject position never exceeds the current one. -/
def starOk (star : Option (Nat × Nat)) (si : Nat) : Prop :=
  ∀ sp ss, star = some (sp, ss) → ss ≤ si

/-- Weight of the backtrack record for the termination measure. -/
def starMeasure (slen : Nat) : Option (Nat × Nat) → Nat
  | none => slen + 1
  | some (_, ss) => slen - ss

/-- The main loop of `glob_match` (glob.c): `pi`/`si` are the pattern
and subject cursors, `star` the remembered backtrack point (pattern
index of the last `*` and the subject index where it matched).  The
branches are, in source order: record a `*`; literal or `?` match
(note that this branch fires before the class branch, so a subject
byte equal to `[` is consumed as a literal when the pattern has `[`);
character class; backtrack or fail. -/
def globLoop (p s : List Nat) (pi si : Nat) (star : Option (Nat × Nat))
    (hstar : starOk star si) : Bool :=
  if hsi : si < s.length then
    if hp1 : pi < p.length ∧ p.getD pi 0 = 42 then
      globLoop p s (pi + 1) si (some (pi, si))
        (by intro sp ss hh; cases hh; omega)
    else if hp2 : pi < p.length ∧ (p.getD pi 0 = 63 ∨ p.getD pi 0 = s.getD si 0) then
      globLoop p s (pi + 1) (si + 1) star
        (fun sp ss hh => le_trans (hstar sp ss hh) (by omega))
    else if hp3 : pi < p.length ∧ p.getD pi 0 = 91 ∧
        (matchCharClass p pi (s.getD si 0)).1 = true then
      globLoop p s (matchCharClass p pi (s.getD si 0)).2 (si + 1) star
        (fun sp ss hh => le_trans (hstar sp ss hh) (by omega))
    else
      match star, hstar with
      | some (sp, ss), hst =>
        globLoop p s (sp + 1) (ss + 1) (some (sp, ss + 1))
          (by intro sp' ss' hh; cases hh; omega)
      | none, _ => false
  else globConsumeStars p pi
termination_by (starMeasure s.length star, s.length - si, p.length - pi)
decreasing_by
  · rcases star with _ | ⟨sp, ss⟩
    · apply Prod.Lex.left
      simp [starMeasure]
      omega
    · have hss : ss ≤ si := hstar sp ss rfl
      rcases Nat.lt_or_ge ss si with hlt | hge
      · apply Prod.Lex.left
        simp [starMeasure]
        omega
      · have heq : ss = si := by omega
        subst heq
        have hm : starMeasure s.length (some (pi, ss)) =
            starMeasure s.length (some (sp, ss)) := rfl
        rw [hm]
        apply Prod.Lex.right
        apply Prod.Lex.right
        omega
  · apply Prod.Lex.right
    apply Prod.Lex.left
    omega
  · apply Prod.Lex.right
    apply Prod.Lex.left
    omega
  · have hss : ss ≤ si := hst sp ss rfl
    apply Prod.Lex.left
    simp [starMeasure]
    omega

/-- `glob_match` of glob.c. -/
def globMatch (p s : List Nat) : Bool :=
  globLoop p s 0 0 none (by intro sp ss hh; cases hh)

/-- Character-class items as the specification describes them, parsed
from the class body (the bytes after `[` and the optional negation):
a list of inclusive ranges, where a single listed element `a` is the
range `a-a`; `a-b` is a range when the byte after the `-` is not `]`;
a `]` in first position is a literal element; a class with no closing
`]` has no items (`none`). -/
def specItems : List Nat → Bool → Option (List (Nat × Nat))
  | [], _ => none
  | x :: y1 :: y2 :: rest2, first =>
    if x = 93 ∧ first = false then some []
    else if y1 = 45 ∧ y2 ≠ 93 then (specItems rest2 false).map fun l => (x, y2) :: l
    else (specItems (y1 :: y2 :: rest2) false).map fun l => (x, x) :: l
  | x :: rest, first =>
    if x = 93 ∧ first = false then some []
    else (specItems rest false).map fun l => (x, x) :: l

/-- The specification's class semantics: a byte matches the class body
iff it equals a listed element or falls in an inclusive range `a-b`,
with the sense inverted when the body begins with `!` or `^`; an
unclosed class matches no byte. -/
def specClassMatch (body : List Nat) (c : Nat) : Bool :=
  match body with
  | [] => false
  | b :: rest =>
    let neg := b = 33 ∨ b = 94
    match specItems (if neg then rest else b :: rest) true with
    | none => false
    | some items =>
      let m := items.any fun lh => lh.1 ≤ c ∧ c ≤ lh.2
      if neg then !m else m

theorem specItems_cons_close (x : Nat) (rest : List Nat) (first : Bool)
    (hx : x = 93) (hf : first = false) :
    specItems (x :: rest) first = some [] := by
  rcases rest with _ | ⟨y1, _ | ⟨y2, rest2⟩⟩
  · show (if x = 93 ∧ first = false then some []
      else (specItems [] false).map fun l => (x, x) :: l) = some []
    rw [if_pos ⟨hx, hf⟩]
  · show (if x = 93 ∧ first = false then some []
      else (specItems [y1] false).map fun l => (x, x) :: l) = some []
    rw [if_pos ⟨hx, hf⟩]
  · show (if x = 93 ∧ first = false then some []
      else if y1 = 45 ∧ y2 ≠ 93 then (specItems rest2 false).map fun l => (x, y2) :: l
      else (specItems (y1 :: y2 :: rest2) false).map fun l => (x, x) :: l) = some []
    rw [if_pos ⟨hx, hf⟩]

theorem specItems_cons_range (x y2 : Nat) (rest2 : List Nat) (first : Bool)
    (hA : ¬(x = 93 ∧ first = false)) (hy : y2 ≠ 93) :
    specItems (x :: 45 :: y2 :: rest2) first =
      (specItems rest2 false).map fun l => (x, y2) :: l := by
  show (if x = 93 ∧ first = false then some []
    else if (45 : Nat) = 45 ∧ y2 ≠ 93 then (specItems rest2 false).map fun l => (x, y2) :: l
    else (specItems (45 :: y2 :: rest2) false).map fun l => (x, x) :: l) = _
  rw [if_neg hA, if_pos (⟨rfl, hy⟩ : (45 : Nat) = 45 ∧ y2 ≠ 93)]

theorem specItems_cons_single (x : Nat) (rest : List Nat) (first : Bool)
    (hA : ¬(x = 93 ∧ first = false))
    (hnr : ∀ y2 rest2, rest = 45 :: y2 :: rest2 → y2 = 93) :
    specItems (x :: rest) first = (specItems rest false).map fun l => (x, x) :: l := by
  rcases rest with _ | ⟨y1, _ | ⟨y2, rest2⟩⟩
  · show (if x = 93 ∧ first = false then some []
      else (specItems [] false).map fun l => (x, x) :: l) = _
    rw [if_neg hA]
  · show (if x = 93 ∧ first = false then some []
      else (specItems [y1] false).map fun l => (x, x) :: l) = _
    rw [if_neg hA]
  · by_cases h45 : y1 = 45 ∧ y2 ≠ 93
    · exact absurd (hnr y2 rest2 (by rw [h45.1])) h45.2
    · show (if x = 93 ∧ first = false then some []
        else if y1 = 45 ∧ y2 ≠ 93 then (specItems rest2 false).map fun l => (x, y2) :: l
        else (specItems (y1 :: y2 :: rest2) false).map fun l => (x, x) :: l) = _
      rw [if_neg hA, if_neg h45]

theorem drop_cons_of_lt (p : List Nat) (i : Nat) (hi : i < p.length) :
    p.drop i = p.getD i 0 :: p.drop (i + 1) := by
  rw [List.getD_eq_getElem p 0 hi]
  exact List.drop_eq_getElem_cons hi

/-- The element-scanning loop of `match_char_class` agrees with the
specification's item semantics. -/
theorem mccLoop_spec (p : List Nat) (c : Nat) (piOrig : Nat) (neg : Bool)
    (i : Nat) (first matched : Bool) :
    (specItems (p.drop i) first = none →
      mccLoop p c piOrig neg i first matched = (false, piOrig)) ∧
    (∀ items, specItems (p.drop i) first = some items →
      (mccLoop p c piOrig neg i first matched).1 =
        (if neg then !(matched || items.any fun lh => lh.1 ≤ c ∧ c ≤ lh.2)
         else (matched || items.any fun lh => lh.1 ≤ c ∧ c ≤ lh.2))) := by
  by_cases hi : i < p.length
  · have hdrop : p.drop i = p.getD i 0 :: p.drop (i + 1) := drop_cons_of_lt p i hi
    by_cases hA : p.getD i 0 = 93 ∧ first = false
    · have hspec : specItems (p.drop i) first = some [] := by
        rw [hdrop]
        exact specItems_cons_close _ _ _ hA.1 hA.2
      have hmcc : mccLoop p c piOrig neg i first matched =
          ((if neg then !matched else matched), i + 1) := by
        rw [mccLoop]
        have hcond : ¬(i < p.length ∧ (p.getD i 0 ≠ 93 ∨ first = true)) := by
          rintro ⟨-, hor⟩
          rcases hor with hne | htr
          · exact hne hA.1
          · rw [hA.2] at htr
            cases htr
        rw [dif_neg hcond, if_neg (by omega)]
      constructor
      · intro hnone
        rw [hspec] at hnone
        cases hnone
      · intro items hitems
        rw [hspec] at hitems
        injection hitems with hit
        subst hit
        rw [hmcc]
        simp
    · have hcond : i < p.length ∧ (p.getD i 0 ≠ 93 ∨ first = true) := by
        rcases Bool.eq_false_or_eq_true first with htr | hf
        · exact ⟨hi, Or.inr htr⟩
        · refine ⟨hi, Or.inl ?_⟩
          intro hx
          exact hA ⟨hx, hf⟩
      by_cases hrange : i + 2 < p.length ∧ p.getD (i + 1) 0 = 45 ∧ p.getD (i + 2) 0 ≠ 93
      · have hd1 : p.drop (i + 1) = p.getD (i + 1) 0 :: p.drop (i + 2) :=
          drop_cons_of_lt p (i + 1) (by omega)
        have hd2 : p.drop (i + 2) = p.getD (i + 2) 0 :: p.drop (i + 3) :=
          drop_cons_of_lt p (i + 2) (by omega)
        have hspec : specItems (p.drop i) first =
            (specItems (p.drop (i + 3)) false).map
              fun l => (p.getD i 0, p.getD (i + 2) 0) :: l := by
          rw [hdrop, hd1, hd2, hrange.2.1]
          exact specItems_cons_range _ _ _ _ hA hrange.2.2
        have hmcc : mccLoop p c piOrig neg i first matched =
            mccLoop p c piOrig neg (i + 3) false
              (matched || (p.getD i 0 ≤ c && c ≤ p.getD (i + 2) 0)) := by
          rw [mccLoop, dif_pos hcond, if_pos hrange]
        have ih := mccLoop_spec p c piOrig neg (i + 3) false
          (matched || (p.getD i 0 ≤ c && c ≤ p.getD (i + 2) 0))
        constructor
        · intro hnone
          rw [hspec] at hnone
          rw [hmcc]
          exact ih.1 (by
            rcases hinner : specItems (p.drop (i + 3)) false with _ | its
            · rfl
            · rw [hinner] at hnone
              cases hnone)
        · intro items hitems
          rw [hspec] at hitems
          rcases hinner : specItems (p.drop (i + 3)) false with _ | its
          · rw [hinner] at hitems
            cases hitems
          · rw [hinner] at hitems
            injection hitems with hit
            subst hit
            rw [hmcc, ih.2 its hinner]
            have hb : ((matched || (p.getD i 0 ≤ c && c ≤ p.getD (i + 2) 0)) ||
                (its.any fun lh => lh.1 ≤ c ∧ c ≤ lh.2)) =
                (matched || (((p.getD i 0, p.getD (i + 2) 0) :: its).any
                  fun lh => lh.1 ≤ c ∧ c ≤ lh.2)) := by
              simp only [List.any_cons, Bool.or_assoc, decide_eq_true_eq]
              rw [Bool.decide_and]
            rw [hb]
      · have hnr : ∀ y2 rest2, p.drop (i + 1) = 45 :: y2 :: rest2 → y2 = 93 := by
          intro y2 rest2 heq
          by_cases h1 : i + 1 < p.length
          · have hd1 : p.drop (i + 1) = p.getD (i + 1) 0 :: p.drop (i + 2) :=
              drop_cons_of_lt p (i + 1) h1
            rw [hd1] at heq
            injection heq with he1 he2
            by_cases h2 : i + 2 < p.length
            · have hd2 : p.drop (i + 2) = p.getD (i + 2) 0 :: p.drop (i + 3) :=
                drop_cons_of_lt p (i + 2) h2
              rw [hd2] at he2
              injection he2 with he3 he4
              by_contra hne
              exact hrange ⟨h2, he1, by rw [← he3] at hne; exact hne⟩
            · have : p.drop (i + 2) = [] := List.drop_eq_nil_of_le (by omega)
              rw [this] at he2
              cases he2
          · have : p.drop (i + 1) = [] := List.drop_eq_nil_of_le (by omega)
            rw [this] at heq
            cases heq
        have hspec : specItems (p.drop i) first =
            (specItems (p.drop (i + 1)) false).map
              fun l => (p.getD i 0, p.getD i 0) :: l := by
          rw [hdrop]
          exact specItems_cons_single _ _ _ hA hnr
        have hmcc : mccLoop p c piOrig neg i first matched =
            mccLoop p c piOrig neg (i + 1) false
              (matched || (p.getD i 0 ≤ c && c ≤ p.getD i 0)) := by
          rw [mccLoop, dif_pos hcond, if_neg hrange]
        have ih := mccLoop_spec p c piOrig neg (i + 1) false
          (matched || (p.getD i 0 ≤ c && c ≤ p.getD i 0))
        constructor
        · intro hnone
          rw [hspec] at hnone
          rw [hmcc]
          exact ih.1 (by
            rcases hinner : specItems (p.drop (i + 1)) false with _ | its
            · rfl
            · rw [hinner] at hnone
              cases hnone)
        · intro items hitems
          rw [hspec] at hitems
          rcases hinner : specItems (p.drop (i + 1)) false with _ | its
          · rw [hinner] at hitems
            cases hitems
          · rw [hinner] at hitems
            injection hitems with hit
            subst hit
            rw [hmcc, ih.2 its hinner]
            have hb : ((matched || (p.getD i 0 ≤ c && c ≤ p.getD i 0)) ||
                (its.any fun lh => lh.1 ≤ c ∧ c ≤ lh.2)) =
                (matched || (((p.getD i 0, p.getD i 0) :: its).any
                  fun lh => lh.1 ≤ c ∧ c ≤ lh.2)) := by
              simp only [List.any_cons, Bool.or_assoc, decide_eq_true_eq]
              rw [Bool.decide_and]
            rw [hb]
  · have hdrop : p.drop i = [] := List.drop_eq_nil_of_le (by omega)
    have hspec : specItems (p.drop i) first = none := by
      rw [hdrop]
      rfl
    constructor
    · intro _
      rw [mccLoop]
      have hcond : ¬(i < p.length ∧ (p.getD i 0 ≠ 93 ∨ first = true)) := by
        intro hc
        exact hi hc.1
      rw [dif_neg hcond, if_pos (by omega)]
    · intro items hitems
      rw [hspec] at hitems
      cases hitems
termination_by p.length - i
decreasing_by
  · omega
  · omega

/-- `match_char_class` agrees with the specification's class semantics
on the class body. -/
theorem matchCharClass_spec (p : List Nat) (pi : Nat) (c : Nat) :
    (matchCharClass p pi c).1 = specClassMatch (p.drop (pi + 1)) c := by
  rw [matchCharClass]
  by_cases hlen : pi + 1 ≥ p.length
  · rw [if_pos hlen]
    have hdrop : p.drop (pi + 1) = [] := List.drop_eq_nil_of_le (by omega)
    rw [hdrop]
    rfl
  · rw [if_neg hlen]
    have hdrop : p.drop (pi + 1) = p.getD (pi + 1) 0 :: p.drop (pi + 2) :=
      drop_cons_of_lt p (pi + 1) (by omega)
    by_cases hneg : p.getD (pi + 1) 0 = 33 ∨ p.getD (pi + 1) 0 = 94
    · rw [if_pos hneg, hdrop, specClassMatch, if_pos hneg]
      have hm := mccLoop_spec p c pi true (pi + 2) true false
      rcases hit : specItems (p.drop (pi + 2)) true with _ | items
      · rw [hm.1 hit]
      · rw [hm.2 items hit]
        show (if true = true
            then !(false || items.any fun lh => lh.1 ≤ c ∧ c ≤ lh.2)
            else (false || items.any fun lh => lh.1 ≤ c ∧ c ≤ lh.2)) =
          (if p.getD (pi + 1) 0 = 33 ∨ p.getD (pi + 1) 0 = 94
            then !(items.any fun lh => lh.1 ≤ c ∧ c ≤ lh.2)
            else (items.any fun lh => lh.1 ≤ c ∧ c ≤ lh.2))
        rw [if_pos rfl, if_pos hneg, Bool.false_or]
    · rw [if_neg hneg, hdrop, specClassMatch, if_neg hneg, ← hdrop]
      have hm := mccLoop_spec p c pi false (pi + 1) true false
      rcases hit : specItems (p.drop (pi + 1)) true with _ | items
      · rw [hm.1 hit]
      · rw [hm.2 items hit]
        show (if false = true
            then !(false || items.any fun lh => lh.1 ≤ c ∧ c ≤ lh.2)
            else (false || items.any fun lh => lh.1 ≤ c ∧ c ≤ lh.2)) =
          (if p.getD (pi + 1) 0 = 33 ∨ p.getD (pi + 1) 0 = 94
            then !(items.any fun lh => lh.1 ≤ c ∧ c ≤ lh.2)
            else (items.any fun lh => lh.1 ≤ c ∧ c ≤ lh.2))
        rw [if_neg (by simp : ¬(false = true)), if_neg hneg, Bool.false_or]

/-- **C8** (amended): a `[...]` character class matches one subject
byte exactly as the specification says — equal to a listed element or
inside an inclusive range `a-b`, inverted for a leading `!` or `^`,
`]` first is literal, unclosed matches nothing — for every subject byte
other than `[` (first conjunct, together with the third: on success the
class branch consumes exactly one subject byte).  A subject byte equal
to `[` never reaches the class: the matcher's literal branch consumes
it against the `[` that opens the class (second conjunct). -/
theorem c8_char_class (p s : List Nat) :
    (∀ pi c, pi < p.length → p.getD pi 0 = 91 →
      (matchCharClass p pi c).1 = specClassMatch (p.drop (pi + 1)) c) ∧
    (∀ pi si star (hstar : starOk star si), si < s.length → pi < p.length →
      p.getD pi 0 = 91 → s.getD si 0 = 91 →
      globLoop p s pi si star hstar =
        globLoop p s (pi + 1) (si + 1) star
          (fun sp ss hh => le_trans (hstar sp ss hh) (Nat.le_succ si))) ∧
    (∀ pi si star (hstar : starOk star si), si < s.length → pi < p.length →
      p.getD pi 0 = 91 → s.getD si 0 ≠ 91 →
      (matchCharClass p pi (s.getD si 0)).1 = true →
      globLoop p s pi si star hstar =
        globLoop p s (matchCharClass p pi (s.getD si 0)).2 (si + 1) star
          (fun sp ss hh => le_trans (hstar sp ss hh) (Nat.le_succ si))) := by
  refine ⟨?_, ?_, ?_⟩
  · intro pi c _ _
    exact matchCharClass_spec p pi c
  · intro pi si star hstar hsi hpi hp hs
    rw [globLoop.eq_def, dif_pos hsi]
    have h42 : ¬(pi < p.length ∧ p.getD pi 0 = 42) := by
      rintro ⟨-, hc⟩
      rw [hp] at hc
      cases hc
    rw [dif_neg h42]
    have heq : pi < p.length ∧ (p.getD pi 0 = 63 ∨ p.getD pi 0 = s.getD si 0) := by
      refine ⟨hpi, Or.inr ?_⟩
      rw [hp, hs]
    rw [dif_pos heq]
  · intro pi si star hstar hsi hpi hp hs hm
    rw [globLoop.eq_def, dif_pos hsi]
    have h42 : ¬(pi < p.length ∧ p.getD pi 0 = 42) := by
      rintro ⟨-, hc⟩
      rw [hp] at hc
      cases hc
    rw [dif_neg h42]
    have hne : ¬(pi < p.length ∧ (p.getD pi 0 = 63 ∨ p.getD pi 0 = s.getD si 0)) := by
      rintro ⟨-, hc | hc⟩
      · rw [hp] at hc
        cases hc
      · rw [hp] at hc
        exact hs hc.symm
    rw [dif_neg hne]
    rw [dif_pos ⟨hpi, hp, hm⟩]

/-- Witness for C8 (amended) at the pattern `[a]`, subject byte `a`. -/
theorem c8_char_class_witness :
    (matchCharClass [91, 97, 93] 0 97).1 = specClassMatch [97, 93] 97 ∧
    specClassMatch [97, 93] 97 = true := by
  refine ⟨?_, by decide⟩
  exact (c8_char_class [91, 97, 93] []).1 0 97 (by decide) (by decide)

/-- Counterexample to C8 as stated: the claim extends the class
semantics to subject bytes equal to `[`, but `glob_match` consumes such
a byte with the literal branch first.  The pattern `[[]` lists `[` as a
class member, so under the claim it matches the subject `[`; the code
returns no-match. -/
theorem c8_counterexample :
    globMatch [91, 91, 93] [91] = false ∧ specClassMatch [91, 93] 91 = true := by
  constructor
  · rw [globMatch, globLoop.eq_def]
    rw [dif_pos (by decide : (0 : Nat) < ([91] : List Nat).length)]
    rw [dif_neg (by decide : ¬((0 : Nat) < ([91, 91, 93] : List Nat).length ∧
      ([91, 91, 93] : List Nat).getD 0 0 = 42))]
    rw [dif_pos (⟨by decide, Or.inr (by decide)⟩ :
      (0 : Nat) < ([91, 91, 93] : List Nat).length ∧
      (([91, 91, 93] : List Nat).getD 0 0 = 63 ∨
        ([91, 91, 93] : List Nat).getD 0 0 = ([91] : List Nat).getD 0 0))]
    rw [globLoop.eq_def]
    rw [dif_neg (by decide : ¬((1 : Nat) < ([91] : List Nat).length))]
    rw [globConsumeStars.eq_def]
    rw [dif_neg (by decide : ¬((1 : Nat) < ([91, 91, 93] : List Nat).length ∧
      ([91, 91, 93] : List Nat).getD 1 0 = 42))]
    decide
  · decide


/-! ### Keyspace hashtable (hashtable.c)

Byte strings (`rstr_t`) are `List Nat`; `int64_t expire_at` is an `Int`
(`-1` means no expiry); `current_time_ms()` is passed in explicitly as
`now : Int`.  Every C loop is modelled with an explicit fuel equal to
the bound of the corresponding `for`/`while` loop, so all definitions
are structural and evaluate inside the kernel. -/

inductive EntryState where
  | entryEmpty
  | occupied
  | tombstone
deriving DecidableEq, Repr

structure HtEntry where
  state : EntryState
  key : List Nat
  value : List Nat
  expire_at : Int
deriving DecidableEq, Repr

/-- A `calloc`-fresh slot after the `expire_at = -1` initialisation
loop of `ht_create`/`ht_resize`. -/
instance : Inhabited HtEntry := ⟨⟨.entryEmpty, [], [], -1⟩⟩

structure Hashtable where
  entries : List HtEntry
  capacity : Nat
  count : Nat
  used : Nat
deriving DecidableEq, Repr

/-- `fnv1a_hash`: 32-bit FNV-1a over the bytes (uint32 arithmetic). -/
def fnv1a_hash (data : List Nat) : Nat :=
  data.foldl (fun h b => ((h ^^^ (b % 256)) * 16777619) % 2 ^ 32) 2166136261

/-- `is_expired`: `expire_at != -1 && current_time_ms() >= expire_at`. -/
def is_expired (e : HtEntry) (now : Int) : Bool :=
  if e.expire_at = -1 then false else decide (e.expire_at ≤ now)

/-- `entry_free`: release key and value, mark the slot TOMBSTONE,
clear the expiry. -/
def entry_free (_e : HtEntry) : HtEntry :=
  { state := .tombstone, key := [], value := [], expire_at := -1 }

/-- The `for (i = 0; i < capacity; i++)` loop of `probe`, with
`fuel = capacity - i` iterations left.  Returns `(found, slot, table)`;
the table comes back modified when the probe lazily frees an expired
matching entry. -/
def probeAux (ht : Hashtable) (key : List Nat) (now : Int) (idx : Nat) :
    Nat → Nat → Option Nat → Bool × Nat × Hashtable
  | 0, _i, first_tombstone => (false, first_tombstone.getD 0, ht)
  | fuel + 1, i, first_tombstone =>
    let slot := (idx + i) &&& (ht.capacity - 1)
    let e := ht.entries.getD slot default
    if e.state = .entryEmpty then
      (false, first_tombstone.getD slot, ht)
    else if e.state = .tombstone then
      probeAux ht key now idx fuel (i + 1)
        (if first_tombstone.isSome then first_tombstone else some slot)
    else if e.key = key then
      if is_expired e now then
        (false, first_tombstone.getD slot,
          { ht with entries := ht.entries.set slot (entry_free e),
                    count := ht.count - 1 })
      else (true, slot, ht)
    else probeAux ht key now idx fuel (i + 1) first_tombstone

/-- `probe`: linear probing from `fnv1a_hash(key) & (capacity - 1)`. -/
def probe (ht : Hashtable) (key : List Nat) (now : Int) :
    Bool × Nat × Hashtable :=
  probeAux ht key now (fnv1a_hash key &&& (ht.capacity - 1)) ht.capacity 0 none

/-- The `while (new_entries[idx].state == ENTRY_OCCUPIED)` rehash scan
of `ht_resize`.  Fuel `new_cap` covers it: the loop advances past
occupied slots and the new table always keeps a free slot. -/
def findSlotAux (entries : List HtEntry) (new_cap : Nat) : Nat → Nat → Nat
  | 0, idx => idx
  | fuel + 1, idx =>
    if (entries.getD idx default).state = .occupied then
      findSlotAux entries new_cap fuel ((idx + 1) &&& (new_cap - 1))
    else idx

/-- `ht_resize`: double the capacity, reinsert every occupied entry
(in slot order) into a fresh table, drop tombstones, set
`used = count`. -/
def ht_resize (ht : Hashtable) : Hashtable :=
  let new_cap := ht.capacity * 2
  let new_entries :=
    ht.entries.foldl
      (fun acc e =>
        if e.state = .occupied then
          acc.set (findSlotAux acc new_cap new_cap
                    (fnv1a_hash e.key &&& (new_cap - 1))) e
        else acc)
      (List.replicate new_cap default)
  { entries := new_entries, capacity := new_cap, count := ht.count,
    used := ht.count }

/-- `ht_create`: capacity 64, all slots empty with no expiry. -/
def ht_create : Hashtable :=
  { entries := List.replicate 64 default, capacity := 64, count := 0,
    used := 0 }

/-- The load-factor test of `ht_set`:
`(double)used >= (double)capacity * 0.7`.  The nearest double to 0.7 is
slightly below 7/10, and for the power-of-two capacities this table
uses (well below 2^52) no integer lies between `capacity * 0.7` in
double arithmetic and `7 * capacity / 10`, so the comparison is exactly
`10 * used ≥ 7 * capacity`. -/
def loadFactorReached (ht : Hashtable) : Bool :=
  decide (10 * ht.used ≥ 7 * ht.capacity)

/-- `ht_set`: resize if the load factor is reached, then probe; either
overwrite the matching live entry (clearing its expiry, returning
`false`) or claim the returned empty/tombstone slot (returning `true`).
`used` grows only when an empty slot is claimed. -/
def ht_set (ht0 : Hashtable) (key value : List Nat) (now : Int) :
    Bool × Hashtable :=
  let ht1 := if loadFactorReached ht0 then ht_resize ht0 else ht0
  let new_entry : HtEntry :=
    { state := .occupied, key := key, value := value, expire_at := -1 }
  match probe ht1 key now with
  | (found, slot, ht) =>
    if found then
      (false, { ht with entries := ht.entries.set slot new_entry })
    else
      (true,
        { ht with
          entries := ht.entries.set slot new_entry,
          count := ht.count + 1,
          used := if (ht.entries.getD slot default).state = .entryEmpty
                  then ht.used + 1 else ht.used })

/-- `ht_get`: probe; return the stored value when found. -/
def ht_get (ht : Hashtable) (key : List Nat) (now : Int) :
    Option (List Nat) × Hashtable :=
  match probe ht key now with
  | (found, slot, ht') =>
    if found then (some (ht'.entries.getD slot default).value, ht')
    else (none, ht')

/-- `ht_delete`: probe; free the found slot and decrement `count`
(`used` is unchanged: a tombstone replaces the occupied slot). -/
def ht_delete (ht : Hashtable) (key : List Nat) (now : Int) :
    Bool × Hashtable :=
  match probe ht key now with
  | (found, slot, ht') =>
    if found then
      (true,
        { ht' with
          entries := ht'.entries.set slot
            (entry_free (ht'.entries.getD slot default)),
          count := ht'.count - 1 })
    else (false, ht')

/-- `ht_exists`: probe and report `found`. -/
def ht_exists (ht : Hashtable) (key : List Nat) (now : Int) :
    Bool × Hashtable :=
  match probe ht key now with
  | (found, _slot, ht') => (found, ht')

/-- `ht_set_expire`: probe; on success overwrite the slot's
`expire_at`. -/
def ht_set_expire (ht : Hashtable) (key : List Nat)
    (expire_at_ms : Int) (now : Int) : Hashtable :=
  match probe ht key now with
  | (found, slot, ht') =>
    if found then
      let e' := { ht'.entries.getD slot default with expire_at := expire_at_ms }
      { ht' with entries := ht'.entries.set slot e' }
    else ht'

/-- `ht_get_expire`: probe; return the slot's `expire_at`, `-1` when
not found. -/
def ht_get_expire (ht : Hashtable) (key : List Nat) (now : Int) :
    Int × Hashtable :=
  match probe ht key now with
  | (found, slot, ht') =>
    if found then ((ht'.entries.getD slot default).expire_at, ht')
    else (-1, ht')

/-- `ht_count`. -/
def ht_count (ht : Hashtable) : Nat := ht.count

/-- The `while (iter->index < capacity)` loop of `ht_iter_next`, fuel
`capacity - index`.  Skips non-occupied slots, lazily frees expired
entries, and yields the first live entry together with the updated
table and cursor. -/
def htIterNextAux (now : Int) :
    Nat → Hashtable → Nat → Option (List Nat × List Nat) × Hashtable × Nat
  | 0, ht, index => (none, ht, index)
  | fuel + 1, ht, index =>
    if index < ht.capacity then
      let e := ht.entries.getD index default
      if e.state = .occupied then
        if is_expired e now then
          htIterNextAux now fuel
            { ht with entries := ht.entries.set index (entry_free e),
                      count := ht.count - 1 }
            (index + 1)
        else (some (e.key, e.value), ht, index + 1)
      else htIterNextAux now fuel ht (index + 1)
    else (none, ht, index)

/-- `ht_iter_next` on a cursor `index` (from `ht_iter_init`, the cursor
starts at 0). -/
def ht_iter_next (ht : Hashtable) (index : Nat) (now : Int) :
    Option (List Nat × List Nat) × Hashtable × Nat :=
  htIterNextAux now ht.capacity ht index

/-- The keyspace states reachable through the hashtable API from
`ht_create`, at arbitrary observation times. -/
inductive Reachable : Hashtable → Prop where
  | create : Reachable ht_create
  | hset : ∀ {ht} (key value : List Nat) (now : Int), Reachable ht →
      Reachable (ht_set ht key value now).2
  | hget : ∀ {ht} (key : List Nat) (now : Int), Reachable ht →
      Reachable (ht_get ht key now).2
  | hdelete : ∀ {ht} (key : List Nat) (now : Int), Reachable ht →
      Reachable (ht_delete ht key now).2
  | hexists : ∀ {ht} (key : List Nat) (now : Int), Reachable ht →
      Reachable (ht_exists ht key now).2
  | hsetExpire : ∀ {ht} (key : List Nat) (e now : Int), Reachable ht →
      Reachable (ht_set_expire ht key e now)
  | hgetExpire : ∀ {ht} (key : List Nat) (now : Int), Reachable ht →
      Reachable (ht_get_expire ht key now).2
  | hiterNext : ∀ {ht} (index : Nat) (now : Int), Reachable ht →
      Reachable (ht_iter_next ht index now).2.1

/-! ### Helper lemmas for the hashtable development -/

theorem land_two_pow_sub_one (x k : Nat) : x &&& (2 ^ k - 1) = x % 2 ^ k := by
  apply Nat.eq_of_testBit_eq
  intro i
  simp [Nat.testBit_and, Nat.testBit_mod_two_pow]

theorem getD_set_self : ∀ (l : List HtEntry) (i : Nat) (e : HtEntry),
    i < l.length → (l.set i e).getD i default = e
  | [], i, _, h => absurd h (by simp)
  | _ :: _, 0, _, _ => rfl
  | _ :: t, i + 1, e, h => getD_set_self t i e (by simpa using h)

theorem getD_set_ne : ∀ (l : List HtEntry) (i j : Nat) (e : HtEntry),
    i ≠ j → (l.set i e).getD j default = l.getD j default
  | [], _, _, _, _ => rfl
  | _ :: _, 0, 0, _, h => absurd rfl h
  | _ :: _, 0, _ + 1, _, _ => rfl
  | _ :: _, _ + 1, 0, _, _ => rfl
  | _ :: t, i + 1, j + 1, e, h =>
    getD_set_ne t i j e (fun hh => h (by rw [hh]))

theorem getD_eq_get : ∀ (l : List HtEntry) (s : Nat) (h : s < l.length),
    l.getD s default = l.get ⟨s, h⟩
  | _ :: _, 0, _ => rfl
  | _ :: t, s + 1, h => getD_eq_get t s (by simpa using h)

theorem getD_mem (l : List HtEntry) (s : Nat) (h : s < l.length) :
    l.getD s default ∈ l := by
  rw [getD_eq_get l s h]
  exact l.get_mem s h

/-- Number of slots in a given state. -/
def countState (l : List HtEntry) (st : EntryState) : Nat :=
  l.countP (fun e => decide (e.state = st))

theorem countState_set (l : List HtEntry) (i : Nat) (e : HtEntry)
    (st : EntryState) (hi : i < l.length) :
    countState (l.set i e) st
      + (if (l.getD i default).state = st then 1 else 0) =
    countState l st + (if e.state = st then 1 else 0) := by
  induction l generalizing i with
  | nil => simp at hi
  | cons a t ih =>
    cases i with
    | zero =>
      simp only [countState, List.set_cons_zero, List.countP_cons,
        List.getD_cons_zero, decide_eq_true_eq]
      split_ifs <;> omega
    | succ i =>
      have h2 := ih i (by simpa using hi)
      simp only [countState, List.set_cons_succ, List.countP_cons,
        List.getD_cons_succ, decide_eq_true_eq] at h2 ⊢
      split_ifs at h2 ⊢ <;> omega

theorem countState_partition (l : List HtEntry) :
    countState l .occupied + countState l .tombstone
      + countState l .entryEmpty = l.length := by
  induction l with
  | nil => rfl
  | cons a t ih =>
    simp only [countState, List.countP_cons] at ih ⊢
    cases h : a.state <;> simp [h] <;> omega

theorem countState_pos (l : List HtEntry) (s : Nat) (st : EntryState)
    (h : s < l.length) (hst : (l.getD s default).state = st) :
    0 < countState l st := by
  rw [countState, List.countP_pos_iff]
  exact ⟨l.getD s default, getD_mem l s h,
    by simp only [decide_eq_true_eq]; exact hst⟩

theorem countState_eq_length (l : List HtEntry)
    (h : ∀ s, s < l.length → (l.getD s default).state ≠ .entryEmpty) :
    countState l .occupied + countState l .tombstone = l.length := by
  have h0 : countState l .entryEmpty = 0 := by
    rw [countState, List.countP_eq_zero]
    intro a ha
    obtain ⟨⟨s, hs⟩, rfl⟩ := List.mem_iff_get.1 ha
    have := h s hs
    rw [getD_eq_get l s hs] at this
    simpa using this
  have := countState_partition l
  omega

theorem countState_le_length (l : List HtEntry) (st : EntryState) :
    countState l st ≤ l.length :=
  List.countP_le_length _

theorem mod_add_inj (cap a i j : Nat) (hi : i < cap) (hj : j < cap)
    (h : (a + i) % cap = (a + j) % cap) : i = j := by
  have h2 : i % cap = j % cap := Nat.ModEq.add_left_cancel' a h
  rwa [Nat.mod_eq_of_lt hi, Nat.mod_eq_of_lt hj] at h2

theorem mod_add_surj (cap a s : Nat) (hpos : 0 < cap) (hs : s < cap) :
    ∃ j, j < cap ∧ (a + j) % cap = s := by
  refine ⟨(cap + s - a % cap) % cap, Nat.mod_lt _ hpos, ?_⟩
  have hdm := Nat.div_add_mod a cap
  have hr : a % cap < cap := Nat.mod_lt _ hpos
  have hmul : cap * (1 + a / cap) = cap + cap * (a / cap) := by ring
  have heq : (cap + s - a % cap) + a = cap * (1 + a / cap) + s := by omega
  rw [Nat.add_comm a ((cap + s - a % cap) % cap), Nat.mod_add_mod, heq,
    Nat.mul_add_mod, Nat.mod_eq_of_lt hs]

/-- The slot visited at step `i` of a linear probe for `key` in a table
of `cap` slots: `(hash(key) mod cap + i) mod cap`. -/
def pathIdx (cap : Nat) (key : List Nat) (i : Nat) : Nat :=
  (fnv1a_hash key % cap + i) % cap

theorem pathIdx_lt (cap : Nat) (key : List Nat) (i : Nat)
    (hpos : 0 < cap) : pathIdx cap key i < cap :=
  Nat.mod_lt _ hpos

theorem pathIdx_inj (cap : Nat) (key : List Nat) (i j : Nat)
    (hi : i < cap) (hj : j < cap)
    (h : pathIdx cap key i = pathIdx cap key j) : i = j :=
  mod_add_inj cap (fnv1a_hash key % cap) i j hi hj h

theorem pathIdx_surj (cap : Nat) (key : List Nat) (s : Nat)
    (hpos : 0 < cap) (hs : s < cap) :
    ∃ j, j < cap ∧ pathIdx cap key j = s :=
  mod_add_surj cap (fnv1a_hash key % cap) s hpos hs

/-- Probe-chain integrity of a slot array: for every occupied slot `s`,
the probe sequence of its key reaches `s` without crossing an empty
slot. -/
def chainOKL (l : List HtEntry) (cap : Nat) : Prop :=
  ∀ s, s < cap → (l.getD s default).state = .occupied →
    ∃ d, d < cap ∧ s = pathIdx cap (l.getD s default).key d ∧
      ∀ i, i < d →
        (l.getD (pathIdx cap (l.getD s default).key i) default).state
          ≠ .entryEmpty

/-- No two distinct occupied slots of the array hold the same key. -/
def nodupKeysL (l : List HtEntry) (cap : Nat) : Prop :=
  ∀ s t, s < cap → t < cap →
    (l.getD s default).state = .occupied →
    (l.getD t default).state = .occupied →
    (l.getD s default).key = (l.getD t default).key → s = t

/-- Probe-chain integrity of a table. -/
def chainOK (ht : Hashtable) : Prop := chainOKL ht.entries ht.capacity

/-- Key uniqueness of a table. -/
def nodupKeys (ht : Hashtable) : Prop := nodupKeysL ht.entries ht.capacity

/-- The structural invariant of the open-addressing table. -/
structure HtInv (ht : Hashtable) : Prop where
  len : ht.entries.length = ht.capacity
  pow : ∃ k, ht.capacity = 2 ^ k
  capGe : 64 ≤ ht.capacity
  countEq : ht.count = countState ht.entries .occupied
  usedEq : ht.used = countState ht.entries .occupied
    + countState ht.entries .tombstone
  usedLt : ht.used < ht.capacity
  chain : chainOKL ht.entries ht.capacity
  nodup : nodupKeysL ht.entries ht.capacity

theorem HtInv.capPos {ht : Hashtable} (inv : HtInv ht) : 0 < ht.capacity :=
  Nat.lt_of_lt_of_le (by norm_num) inv.capGe

theorem hashtableExt (a b : Hashtable) (h1 : a.entries = b.entries)
    (h2 : a.capacity = b.capacity) (h3 : a.count = b.count)
    (h4 : a.used = b.used) : a = b := by
  cases a; cases b; simp_all




/-- Postcondition of `probe ht key now` for a result
`(found, slot, ht')`, relative to a well-formed input table. -/
def ProbePost (ht : Hashtable) (key : List Nat) (now : Int) :
    Bool × Nat × Hashtable → Prop
  | (found, slot, ht') =>
    ht'.capacity = ht.capacity ∧
    ht'.used = ht.used ∧
    ht'.entries.length = ht.entries.length ∧
    (found = true →
      ht' = ht ∧ slot < ht.capacity ∧
      (ht.entries.getD slot default).state = .occupied ∧
      (ht.entries.getD slot default).key = key ∧
      is_expired (ht.entries.getD slot default) now = false) ∧
    (found = false →
      (∀ t, t < ht.capacity →
        (ht'.entries.getD t default).state = .occupied →
        (ht'.entries.getD t default).key ≠ key) ∧
      slot < ht.capacity ∧
      (ht'.entries.getD slot default).state ≠ .occupied ∧
      (∃ d, d < ht.capacity ∧ slot = pathIdx ht.capacity key d ∧
        ∀ i, i < d →
          (ht'.entries.getD (pathIdx ht.capacity key i) default).state
            ≠ .entryEmpty) ∧
      (ht' = ht ∨
        ∃ se, se < ht.capacity ∧
          (ht.entries.getD se default).state = .occupied ∧
          (ht.entries.getD se default).key = key ∧
          is_expired (ht.entries.getD se default) now = true ∧
          ht'.entries = ht.entries.set se
            (entry_free (ht.entries.getD se default)) ∧
          ht'.count = ht.count - 1 ∧ 1 ≤ ht.count))

theorem probeAux_spec (ht : Hashtable) (key : List Nat) (now : Int)
    (inv : HtInv ht) :
    ∀ fuel i ft,
      fuel + i = ht.capacity →
      (∀ j, j < i →
        (ht.entries.getD (pathIdx ht.capacity key j) default).state
          ≠ .entryEmpty) →
      (∀ j, j < i →
        (ht.entries.getD (pathIdx ht.capacity key j) default).state = .occupied →
        (ht.entries.getD (pathIdx ht.capacity key j) default).key ≠ key) →
      (∀ t, ft = some t → ∃ j0, j0 < i ∧ t = pathIdx ht.capacity key j0 ∧
        (ht.entries.getD t default).state = .tombstone) →
      ProbePost ht key now
        (probeAux ht key now (fnv1a_hash key &&& (ht.capacity - 1))
          fuel i ft) := by
  intro fuel
  induction fuel with
  | zero =>
    intro i ft hfi hA _hA2 _hC
    exfalso
    have hall : ∀ s, s < ht.entries.length →
        (ht.entries.getD s default).state ≠ .entryEmpty := by
      intro s hs
      rw [inv.len] at hs
      obtain ⟨j, hj, hje⟩ := pathIdx_surj ht.capacity key s inv.capPos hs
      have h := hA j (by omega)
      rwa [hje] at h
    have hcnt := countState_eq_length ht.entries hall
    have hu := inv.usedLt
    rw [inv.usedEq] at hu
    rw [inv.len] at hcnt
    omega
  | succ fuel ih =>
    intro i ft hfi hA hA2 hC
    have hpos := inv.capPos
    have hilt : i < ht.capacity := by omega
    have hπ : ((fnv1a_hash key &&& (ht.capacity - 1)) + i) &&& (ht.capacity - 1)
        = pathIdx ht.capacity key i := by
      obtain ⟨k, hk⟩ := inv.pow
      unfold pathIdx
      rw [hk, land_two_pow_sub_one (fnv1a_hash key) k,
        land_two_pow_sub_one _ k]
    simp only [probeAux]
    rw [hπ]
    by_cases h1 : (ht.entries.getD (pathIdx ht.capacity key i) default).state
        = EntryState.entryEmpty
    · rw [if_pos h1]
      simp only [ProbePost]
      refine ⟨by trivial, by trivial, by trivial, by intro h; simp at h, ?_⟩
      intro _
      refine ⟨?_, ?_, ?_, ?_, Or.inl (by trivial)⟩
      · intro t htlt hocc hkey
        obtain ⟨d, hd, hde, hchain⟩ := inv.chain t htlt hocc
        rw [hkey] at hde hchain
        rcases Nat.lt_trichotomy d i with hdi | hdi | hdi
        · have h2 := hA2 d (by omega)
          rw [← hde] at h2
          exact h2 hocc hkey
        · rw [hdi] at hde
          rw [hde] at hocc
          rw [h1] at hocc
          simp at hocc
        · exact hchain i hdi h1
      · rcases ft with _ | t0
        · simpa using pathIdx_lt ht.capacity key i hpos
        · obtain ⟨j0, hj0, ht0, _⟩ := hC t0 rfl
          simpa [ht0] using pathIdx_lt ht.capacity key j0 hpos
      · rcases ft with _ | t0
        · simp only [Option.getD_none]
          rw [h1]; simp
        · obtain ⟨j0, hj0, ht0, htomb⟩ := hC t0 rfl
          simp only [Option.getD_some]
          rw [htomb]; simp
      · rcases ft with _ | t0
        · exact ⟨i, hilt, by simp, fun j hj => hA j (by omega)⟩
        · obtain ⟨j0, hj0, ht0, _⟩ := hC t0 rfl
          exact ⟨j0, by omega, by simp [ht0], fun j hj => hA j (by omega)⟩
    · rw [if_neg h1]
      by_cases h2 : (ht.entries.getD (pathIdx ht.capacity key i) default).state
          = EntryState.tombstone
      · rw [if_pos h2]
        have hAx : ∀ j, j < i + 1 →
            (ht.entries.getD (pathIdx ht.capacity key j) default).state
              ≠ .entryEmpty := by
          intro j hj
          rcases Nat.lt_or_ge j i with h | h
          · exact hA j h
          · have hji : j = i := by omega
            rw [hji, h2]; simp
        have hA2x : ∀ j, j < i + 1 →
            (ht.entries.getD (pathIdx ht.capacity key j) default).state
              = .occupied →
            (ht.entries.getD (pathIdx ht.capacity key j) default).key ≠ key := by
          intro j hj ho
          rcases Nat.lt_or_ge j i with h | h
          · exact hA2 j h ho
          · have hji : j = i := by omega
            rw [hji] at ho
            rw [h2] at ho
            simp at ho
        rcases ft with _ | t0
        · rw [if_neg (by simp)]
          apply ih (i + 1) (some (pathIdx ht.capacity key i)) (by omega) hAx hA2x
          intro t htf
          injection htf with htf'
          exact ⟨i, by omega, htf'.symm, by rw [← htf']; exact h2⟩
        · rw [if_pos (by simp)]
          apply ih (i + 1) (some t0) (by omega) hAx hA2x
          intro t htf
          injection htf with htf'
          obtain ⟨j0, hj0, ht0, htomb⟩ := hC t0 rfl
          exact ⟨j0, by omega, by rw [← htf']; exact ht0,
            by rw [← htf']; exact htomb⟩
      · rw [if_neg h2]
        have hocc : (ht.entries.getD (pathIdx ht.capacity key i) default).state
            = EntryState.occupied := by
          cases hst : (ht.entries.getD (pathIdx ht.capacity key i) default).state
          · exact absurd hst h1
          · rfl
          · exact absurd hst h2
        by_cases h3 : (ht.entries.getD (pathIdx ht.capacity key i) default).key = key
        · rw [if_pos h3]
          by_cases h4 : is_expired
              (ht.entries.getD (pathIdx ht.capacity key i) default) now = true
          · rw [if_pos h4]
            have hPle : pathIdx ht.capacity key i < ht.entries.length := by
              rw [inv.len]; exact pathIdx_lt ht.capacity key i hpos
            simp only [ProbePost]
            refine ⟨by trivial, by trivial, by simp [List.length_set],
              by intro h; simp at h, ?_⟩
            intro _
            refine ⟨?_, ?_, ?_, ?_, Or.inr ⟨pathIdx ht.capacity key i,
              pathIdx_lt ht.capacity key i hpos, hocc, h3, h4, by trivial,
              by trivial, ?_⟩⟩
            · intro t htlt hocc' hkey'
              by_cases hti : t = pathIdx ht.capacity key i
              · rw [hti] at hocc'
                rw [getD_set_self _ _ _ hPle] at hocc'
                simp [entry_free] at hocc'
              · rw [getD_set_ne _ _ _ _ (fun hh => hti hh.symm)] at hocc' hkey'
                have := inv.nodup t (pathIdx ht.capacity key i) htlt
                  (pathIdx_lt ht.capacity key i hpos) hocc' hocc
                  (by rw [hkey', h3])
                exact hti this
            · rcases ft with _ | t0
              · simpa using pathIdx_lt ht.capacity key i hpos
              · obtain ⟨j0, hj0, ht0, _⟩ := hC t0 rfl
                simpa [ht0] using pathIdx_lt ht.capacity key j0 hpos
            · rcases ft with _ | t0
              · simp only [Option.getD_none]
                rw [getD_set_self _ _ _ hPle]
                simp [entry_free]
              · obtain ⟨j0, hj0, ht0, htomb⟩ := hC t0 rfl
                simp only [Option.getD_some]
                have hne : pathIdx ht.capacity key i ≠ t0 := by
                  rw [ht0]
                  intro hh
                  have := pathIdx_inj ht.capacity key i j0 hilt (by omega) hh
                  omega
                rw [getD_set_ne _ _ _ _ hne]
                rw [htomb]; simp
            · rcases ft with _ | t0
              · refine ⟨i, hilt, by simp, ?_⟩
                intro j hj
                have hne : pathIdx ht.capacity key i ≠ pathIdx ht.capacity key j := by
                  intro hh
                  have := pathIdx_inj ht.capacity key i j hilt (by omega) hh
                  omega
                rw [getD_set_ne _ _ _ _ hne]
                exact hA j (by omega)
              · obtain ⟨j0, hj0, ht0, _⟩ := hC t0 rfl
                refine ⟨j0, by omega, by simp [ht0], ?_⟩
                intro j hj
                have hne : pathIdx ht.capacity key i ≠ pathIdx ht.capacity key j := by
                  intro hh
                  have := pathIdx_inj ht.capacity key i j hilt (by omega) hh
                  omega
                rw [getD_set_ne _ _ _ _ hne]
                exact hA j (by omega)
            · rw [inv.countEq]
              exact countState_pos ht.entries (pathIdx ht.capacity key i)
                .occupied hPle hocc
          · rw [if_neg h4]
            simp only [ProbePost]
            refine ⟨by trivial, by trivial, by trivial, ?_,
              by intro h; simp at h⟩
            intro _
            exact ⟨by trivial, pathIdx_lt ht.capacity key i hpos, hocc, h3,
              by simpa using h4⟩
        · rw [if_neg h3]
          apply ih (i + 1) ft (by omega)
          · intro j hj
            rcases Nat.lt_or_ge j i with h | h
            · exact hA j h
            · have hji : j = i := by omega
              rw [hji, hocc]; simp
          · intro j hj ho
            rcases Nat.lt_or_ge j i with h | h
            · exact hA2 j h ho
            · have hji : j = i := by omega
              rw [hji]; exact h3
          · intro t htf
            obtain ⟨j0, hj0, ht0, htomb⟩ := hC t htf
            exact ⟨j0, by omega, ht0, htomb⟩

theorem probe_spec (ht : Hashtable) (key : List Nat) (now : Int)
    (inv : HtInv ht) : ProbePost ht key now (probe ht key now) := by
  have h := probeAux_spec ht key now inv ht.capacity 0 none (by omega)
    (fun j hj => absurd hj (by omega))
    (fun j hj => absurd hj (by omega))
    (fun t htf => by simp at htf)
  exact h


/-- Overwriting a slot with an entry that is non-empty and, if
occupied, keeps the old key (and the old slot was occupied) preserves
probe-chain integrity. -/
theorem chainOKL_set_preserve (l : List HtEntry) (cap se : Nat)
    (e' : HtEntry) (hch : chainOKL l cap) (hsel : se < l.length)
    (hne : e'.state ≠ .entryEmpty)
    (hkeep : e'.state = .occupied → e'.key = (l.getD se default).key ∧
      (l.getD se default).state = .occupied) :
    chainOKL (l.set se e') cap := by
  intro s hs hocc'
  by_cases hsse : s = se
  · subst hsse
    rw [getD_set_self _ _ _ hsel] at hocc' ⊢
    obtain ⟨hkeyeq, holds⟩ := hkeep hocc'
    obtain ⟨d, hd, hde, hpath⟩ := hch s hs holds
    refine ⟨d, hd, ?_, ?_⟩
    · rw [hkeyeq]; exact hde
    · intro i hi
      rw [hkeyeq]
      by_cases hpi : pathIdx cap (l.getD s default).key i = s
      · rw [hpi, getD_set_self _ _ _ hsel]; exact hne
      · rw [getD_set_ne _ _ _ _ (fun h => hpi h.symm)]
        exact hpath i hi
  · rw [getD_set_ne _ _ _ _ (fun h => hsse h.symm)] at hocc' ⊢
    obtain ⟨d, hd, hde, hpath⟩ := hch s hs hocc'
    refine ⟨d, hd, hde, ?_⟩
    intro i hi
    by_cases hpi : pathIdx cap (l.getD s default).key i = se
    · rw [hpi, getD_set_self _ _ _ hsel]; exact hne
    · rw [getD_set_ne _ _ _ _ (fun h => hpi h.symm)]
      exact hpath i hi

/-- Inserting an occupied entry into a slot reached by its own probe
chain preserves probe-chain integrity. -/
theorem chainOKL_insert (l : List HtEntry) (cap se : Nat) (e' : HtEntry)
    (hch : chainOKL l cap) (hsel : se < l.length)
    (hocc : e'.state = .occupied)
    (hchain : ∃ d, d < cap ∧ se = pathIdx cap e'.key d ∧
      ∀ i, i < d →
        (l.getD (pathIdx cap e'.key i) default).state ≠ .entryEmpty) :
    chainOKL (l.set se e') cap := by
  intro s hs hocc'
  by_cases hsse : s = se
  · subst hsse
    rw [getD_set_self _ _ _ hsel] at hocc' ⊢
    obtain ⟨d, hd, hde, hpath⟩ := hchain
    refine ⟨d, hd, hde, ?_⟩
    intro i hi
    by_cases hpi : pathIdx cap e'.key i = s
    · rw [hpi, getD_set_self _ _ _ hsel]
      rw [hocc]; simp
    · rw [getD_set_ne _ _ _ _ (fun h => hpi h.symm)]
      exact hpath i hi
  · rw [getD_set_ne _ _ _ _ (fun h => hsse h.symm)] at hocc' ⊢
    obtain ⟨d, hd, hde, hpath⟩ := hch s hs hocc'
    refine ⟨d, hd, hde, ?_⟩
    intro i hi
    by_cases hpi : pathIdx cap (l.getD s default).key i = se
    · rw [hpi, getD_set_self _ _ _ hsel]
      rw [hocc]; simp
    · rw [getD_set_ne _ _ _ _ (fun h => hpi h.symm)]
      exact hpath i hi

theorem nodupKeysL_set_preserve (l : List HtEntry) (cap se : Nat)
    (e' : HtEntry) (hnd : nodupKeysL l cap) (hsel : se < l.length)
    (hkeep : e'.state = .occupied → e'.key = (l.getD se default).key ∧
      (l.getD se default).state = .occupied) :
    nodupKeysL (l.set se e') cap := by
  have hback : ∀ u, u < cap →
      ((l.set se e').getD u default).state = .occupied →
      (l.getD u default).state = .occupied ∧
      (l.getD u default).key = ((l.set se e').getD u default).key := by
    intro u hu hou
    by_cases huse : u = se
    · subst huse
      rw [getD_set_self _ _ _ hsel] at hou ⊢
      obtain ⟨hk, ho⟩ := hkeep hou
      exact ⟨ho, hk.symm⟩
    · rw [getD_set_ne _ _ _ _ (fun h => huse h.symm)]
      rw [getD_set_ne _ _ _ _ (fun h => huse h.symm)] at hou
      exact ⟨hou, rfl⟩
  intro s t hs ht hos hot hk
  obtain ⟨hos2, hks⟩ := hback s hs hos
  obtain ⟨hot2, hkt⟩ := hback t ht hot
  exact hnd s t hs ht hos2 hot2 (by rw [hks, hkt, hk])

theorem nodupKeysL_insert (l : List HtEntry) (cap se : Nat) (e' : HtEntry)
    (hnd : nodupKeysL l cap) (hsel : se < l.length)
    (habs : ∀ t, t < cap → (l.getD t default).state = .occupied →
      (l.getD t default).key ≠ e'.key) :
    nodupKeysL (l.set se e') cap := by
  intro s t hs ht hos hot hk
  by_cases hsse : s = se <;> by_cases htse : t = se
  · rw [hsse, htse]
  · exfalso
    rw [hsse, getD_set_self _ _ _ hsel] at hk
    rw [getD_set_ne _ _ _ _ (fun h => htse h.symm)] at hot hk
    exact habs t ht hot hk.symm
  · exfalso
    rw [htse, getD_set_self _ _ _ hsel] at hk
    rw [getD_set_ne _ _ _ _ (fun h => hsse h.symm)] at hos hk
    exact habs s hs hos hk
  · rw [getD_set_ne _ _ _ _ (fun h => hsse h.symm)] at hos hk
    rw [getD_set_ne _ _ _ _ (fun h => htse h.symm)] at hot hk
    exact hnd s t hs ht hos hot hk

/-- Lazily freeing an occupied slot (expired entry seen by `probe`,
`ht_delete`, or iteration) preserves the invariant. -/
theorem inv_free (ht : Hashtable) (inv : HtInv ht) (se : Nat)
    (hse : se < ht.capacity)
    (hocc : (ht.entries.getD se default).state = .occupied) :
    HtInv { ht with
      entries := ht.entries.set se
        (entry_free (ht.entries.getD se default)),
      count := ht.count - 1 } := by
  have hsel : se < ht.entries.length := by rw [inv.len]; exact hse
  have hcs := countState_set ht.entries se
    (entry_free (ht.entries.getD se default)) .occupied hsel
  have hct := countState_set ht.entries se
    (entry_free (ht.entries.getD se default)) .tombstone hsel
  have e1 : (if (ht.entries.getD se default).state = EntryState.occupied
      then 1 else 0) = 1 := by rw [hocc]; rfl
  have e2 : (if (entry_free (ht.entries.getD se default)).state
      = EntryState.occupied then 1 else 0) = 0 :=
    if_neg (by simp [entry_free])
  have e3 : (if (ht.entries.getD se default).state = EntryState.tombstone
      then 1 else 0) = 0 := by rw [hocc]; simp
  have e4 : (if (entry_free (ht.entries.getD se default)).state
      = EntryState.tombstone then 1 else 0) = 1 := if_pos rfl
  rw [e1, e2] at hcs
  rw [e3, e4] at hct
  have hceq := inv.countEq
  have hueq := inv.usedEq
  refine ⟨?_, inv.pow, inv.capGe, ?_, ?_, inv.usedLt, ?_, ?_⟩
  · show (ht.entries.set se
      (entry_free (ht.entries.getD se default))).length = ht.capacity
    rw [List.length_set]; exact inv.len
  · show ht.count - 1 = countState (ht.entries.set se
      (entry_free (ht.entries.getD se default))) .occupied
    omega
  · show ht.used = countState (ht.entries.set se
        (entry_free (ht.entries.getD se default))) .occupied
      + countState (ht.entries.set se
        (entry_free (ht.entries.getD se default))) .tombstone
    omega
  · exact chainOKL_set_preserve ht.entries ht.capacity se _ inv.chain hsel
      (by simp [entry_free]) (by intro h; simp [entry_free] at h)
  · exact nodupKeysL_set_preserve ht.entries ht.capacity se _ inv.nodup hsel
      (by intro h; simp [entry_free] at h)

/-- The table returned by `probe` still satisfies the invariant. -/
theorem post_inv (ht : Hashtable) (key : List Nat) (now : Int)
    (found : Bool) (slot : Nat) (ht2 : Hashtable) (inv : HtInv ht)
    (hp : ProbePost ht key now (found, slot, ht2)) : HtInv ht2 := by
  obtain ⟨hcap, hused, hlen, htr, hfa⟩ := hp
  cases found
  · obtain ⟨_, _, _, _, hdisj⟩ := hfa rfl
    rcases hdisj with h | ⟨se, hse, hocc, _, _, hent, hcnt, _⟩
    · rw [h]; exact inv
    · have h2 := inv_free ht inv se hse hocc
      have hht2 : ht2 = { ht with
          entries := ht.entries.set se
            (entry_free (ht.entries.getD se default)),
          count := ht.count - 1 } := hashtableExt _ _ hent hcap hcnt hused
      rw [hht2]; exact h2
  · obtain ⟨heq, _⟩ := htr rfl
    rw [heq]; exact inv

theorem probe_inv (ht : Hashtable) (key : List Nat) (now : Int)
    (inv : HtInv ht) : HtInv (probe ht key now).2.2 := by
  have hp := probe_spec ht key now inv
  rcases hpe : probe ht key now with ⟨found, slot, ht2⟩
  rw [hpe] at hp
  exact post_inv ht key now found slot ht2 inv hp

theorem ht_get_table (ht : Hashtable) (key : List Nat) (now : Int) :
    (ht_get ht key now).2 = (probe ht key now).2.2 := by
  unfold ht_get
  rcases probe ht key now with ⟨found, slot, ht2⟩
  cases found <;> rfl

theorem ht_exists_table (ht : Hashtable) (key : List Nat) (now : Int) :
    (ht_exists ht key now).2 = (probe ht key now).2.2 := by
  unfold ht_exists
  rcases probe ht key now with ⟨found, slot, ht2⟩
  rfl

theorem ht_get_expire_table (ht : Hashtable) (key : List Nat) (now : Int) :
    (ht_get_expire ht key now).2 = (probe ht key now).2.2 := by
  unfold ht_get_expire
  rcases probe ht key now with ⟨found, slot, ht2⟩
  cases found <;> rfl

theorem inv_ht_get (ht : Hashtable) (key : List Nat) (now : Int)
    (inv : HtInv ht) : HtInv (ht_get ht key now).2 := by
  rw [ht_get_table]; exact probe_inv ht key now inv

theorem inv_ht_exists (ht : Hashtable) (key : List Nat) (now : Int)
    (inv : HtInv ht) : HtInv (ht_exists ht key now).2 := by
  rw [ht_exists_table]; exact probe_inv ht key now inv

theorem inv_ht_get_expire (ht : Hashtable) (key : List Nat) (now : Int)
    (inv : HtInv ht) : HtInv (ht_get_expire ht key now).2 := by
  rw [ht_get_expire_table]; exact probe_inv ht key now inv

theorem inv_ht_delete (ht : Hashtable) (key : List Nat) (now : Int)
    (inv : HtInv ht) : HtInv (ht_delete ht key now).2 := by
  have hp := probe_spec ht key now inv
  unfold ht_delete
  rcases hpe : probe ht key now with ⟨found, slot, ht2⟩
  rw [hpe] at hp
  cases found
  · show HtInv ht2
    exact post_inv ht key now false slot ht2 inv hp
  · obtain ⟨_, _, _, htr, _⟩ := hp
    obtain ⟨heq, hslot, hocc, _, _⟩ := htr rfl
    show HtInv { ht2 with
      entries := ht2.entries.set slot
        (entry_free (ht2.entries.getD slot default)),
      count := ht2.count - 1 }
    rw [heq]
    exact inv_free ht inv slot hslot hocc


/-- Overwriting a found slot's expiry (`ht_set_expire`) preserves the
invariant. -/
theorem inv_expire_update (ht : Hashtable) (inv : HtInv ht) (slot : Nat)
    (hs : slot < ht.capacity)
    (hocc : (ht.entries.getD slot default).state = .occupied) (x : Int) :
    HtInv { ht with entries := ht.entries.set slot ({ ht.entries.getD slot default with expire_at := x }) } := by
  have hsel : slot < ht.entries.length := by rw [inv.len]; exact hs
  have hcs := countState_set ht.entries slot
    ({ ht.entries.getD slot default with expire_at := x }) .occupied hsel
  have hct := countState_set ht.entries slot
    ({ ht.entries.getD slot default with expire_at := x }) .tombstone hsel
  have hst : ({ ht.entries.getD slot default with expire_at := x }).state
      = (ht.entries.getD slot default).state := rfl
  rw [hst] at hcs hct
  have hceq := inv.countEq
  have hueq := inv.usedEq
  refine ⟨?_, inv.pow, inv.capGe, ?_, ?_, inv.usedLt, ?_, ?_⟩
  · show (ht.entries.set slot
      ({ ht.entries.getD slot default with expire_at := x })).length
      = ht.capacity
    rw [List.length_set]; exact inv.len
  · show ht.count = countState (ht.entries.set slot
      ({ ht.entries.getD slot default with expire_at := x })) .occupied
    omega
  · show ht.used = countState (ht.entries.set slot
        ({ ht.entries.getD slot default with expire_at := x })) .occupied
      + countState (ht.entries.set slot
        ({ ht.entries.getD slot default with expire_at := x })) .tombstone
    omega
  · exact chainOKL_set_preserve ht.entries ht.capacity slot _ inv.chain hsel
      (by rw [hst, hocc]; simp) (fun _ => ⟨rfl, hocc⟩)
  · exact nodupKeysL_set_preserve ht.entries ht.capacity slot _ inv.nodup
      hsel (fun _ => ⟨rfl, hocc⟩)

theorem inv_ht_set_expire (ht : Hashtable) (key : List Nat) (x now : Int)
    (inv : HtInv ht) : HtInv (ht_set_expire ht key x now) := by
  have hp := probe_spec ht key now inv
  unfold ht_set_expire
  rcases hpe : probe ht key now with ⟨found, slot, ht2⟩
  rw [hpe] at hp
  cases found
  · show HtInv ht2
    exact post_inv ht key now false slot ht2 inv hp
  · obtain ⟨_, _, _, htr, _⟩ := hp
    obtain ⟨heq, hslot, hocc, _, _⟩ := htr rfl
    show HtInv { ht2 with entries := ht2.entries.set slot ({ ht2.entries.getD slot default with expire_at := x }) }
    rw [heq]
    exact inv_expire_update ht inv slot hslot hocc x

theorem htIterNextAux_inv (now : Int) :
    ∀ fuel (ht : Hashtable) (index : Nat), HtInv ht →
      HtInv (htIterNextAux now fuel ht index).2.1 := by
  intro fuel
  induction fuel with
  | zero => intro ht index inv; exact inv
  | succ fuel ih =>
    intro ht index inv
    simp only [htIterNextAux]
    by_cases h1 : index < ht.capacity
    · rw [if_pos h1]
      by_cases h2 : (ht.entries.getD index default).state
          = EntryState.occupied
      · rw [if_pos h2]
        by_cases h3 : is_expired (ht.entries.getD index default) now = true
        · rw [if_pos h3]
          exact ih _ _ (inv_free ht inv index h1 h2)
        · rw [if_neg h3]
          exact inv
      · rw [if_neg h2]
        exact ih _ _ inv
    · rw [if_neg h1]
      exact inv

theorem inv_ht_iter_next (ht : Hashtable) (index : Nat) (now : Int)
    (inv : HtInv ht) : HtInv (ht_iter_next ht index now).2.1 :=
  htIterNextAux_inv now ht.capacity ht index inv


theorem getD_replicate : ∀ (n s : Nat),
    (List.replicate n (default : HtEntry)).getD s default = default
  | 0, _ => rfl
  | _ + 1, 0 => rfl
  | n + 1, s + 1 => getD_replicate n s

theorem countState_replicate (n : Nat) (st : EntryState)
    (h : st ≠ .entryEmpty) :
    countState (List.replicate n (default : HtEntry)) st = 0 := by
  rw [countState, List.countP_eq_zero]
  intro a ha
  have he := List.eq_of_mem_replicate ha
  subst he
  intro hd
  rw [decide_eq_true_eq] at hd
  exact h hd.symm

theorem countState_take_le (l : List HtEntry) (n : Nat) (st : EntryState) :
    countState (l.take n) st ≤ countState l st := by
  conv_rhs => rw [← List.take_append_drop n l]
  rw [countState, countState, List.countP_append]
  omega

theorem countState_take_succ (l : List HtEntry) (n : Nat)
    (hn : n < l.length) (st : EntryState) :
    countState (l.take (n + 1)) st = countState (l.take n) st
      + (if (l.getD n default).state = st then 1 else 0) := by
  have hg : l.getD n default = l[n] := by
    rw [getD_eq_get l n hn]; rfl
  simp only [countState]
  rw [List.take_succ, List.getElem?_eq_getElem hn, List.countP_append, hg]
  simp [List.countP_cons, List.countP_nil]

theorem findSlotAux_spec (entries : List HtEntry) (nc k : Nat)
    (hk : nc = 2 ^ k) (hpos : 0 < nc) (hlen : entries.length = nc)
    (hfull : countState entries .occupied < nc) (idx0 : Nat)
    (_hidx0 : idx0 < nc) :
    ∀ fuel j, fuel + j = nc →
      (∀ j2, j2 < j →
        (entries.getD ((idx0 + j2) % nc) default).state = .occupied) →
      ∃ d, j ≤ d ∧ d < nc ∧
        findSlotAux entries nc fuel ((idx0 + j) % nc) = (idx0 + d) % nc ∧
        (entries.getD ((idx0 + d) % nc) default).state ≠ .occupied ∧
        ∀ j2, j2 < d →
          (entries.getD ((idx0 + j2) % nc) default).state = .occupied := by
  intro fuel
  induction fuel with
  | zero =>
    intro j hj hA
    exfalso
    have hall : ∀ s, s < entries.length →
        (entries.getD s default).state = .occupied := by
      intro s hs
      rw [hlen] at hs
      obtain ⟨j2, hj2, hje⟩ := mod_add_surj nc idx0 s hpos hs
      have h := hA j2 (by omega)
      rwa [hje] at h
    have hlenc : countState entries .occupied = entries.length := by
      rw [countState, List.countP_eq_length]
      intro a ha
      obtain ⟨⟨s, hs⟩, rfl⟩ := List.mem_iff_get.1 ha
      have h := hall s hs
      rw [getD_eq_get entries s hs] at h
      simp only [decide_eq_true_eq]
      exact h
    omega
  | succ fuel ih =>
    intro j hj hA
    have hjlt : j < nc := by omega
    simp only [findSlotAux]
    by_cases h1 : (entries.getD ((idx0 + j) % nc) default).state
        = EntryState.occupied
    · rw [if_pos h1]
      have hstep : ((idx0 + j) % nc + 1) &&& (nc - 1)
          = (idx0 + (j + 1)) % nc := by
        rw [hk, land_two_pow_sub_one, Nat.mod_add_mod, Nat.add_assoc]
      rw [hstep]
      have hA2 : ∀ j2, j2 < j + 1 →
          (entries.getD ((idx0 + j2) % nc) default).state = .occupied := by
        intro j2 hj2
        rcases Nat.lt_or_ge j2 j with h | h
        · exact hA j2 h
        · have : j2 = j := by omega
          rw [this]; exact h1
      obtain ⟨d, hd1, hd2, hd3, hd4, hd5⟩ := ih (j + 1) (by omega) hA2
      exact ⟨d, by omega, hd2, hd3, hd4, hd5⟩
    · rw [if_neg h1]
      exact ⟨j, Nat.le_refl j, hjlt, rfl, h1, hA⟩

/-- Invariant of the `ht_resize` reinsertion fold after the first `n`
source slots have been processed. -/
structure ResizeAcc (l : List HtEntry) (nc n : Nat)
    (acc : List HtEntry) : Prop where
  len : acc.length = nc
  occ : countState acc .occupied = countState (l.take n) .occupied
  tomb : countState acc .tombstone = 0
  chain : chainOKL acc nc
  nodup : nodupKeysL acc nc
  origin : ∀ s, s < nc → (acc.getD s default).state = .occupied →
    ∃ m, m < n ∧ m < l.length ∧ l.getD m default = acc.getD s default
  presence : ∀ m, m < n → m < l.length →
    (l.getD m default).state = .occupied →
    ∃ s, s < nc ∧ acc.getD s default = l.getD m default

theorem resize_fold_spec (l : List HtEntry) (nc k : Nat) (hk : nc = 2 ^ k)
    (hpos : 0 < nc)
    (hsrc : ∀ m m2, m < m2 → m2 < l.length →
      (l.getD m default).state = .occupied →
      (l.getD m2 default).state = .occupied →
      (l.getD m default).key ≠ (l.getD m2 default).key)
    (hcnt : countState l .occupied < nc) :
    ∀ n, n ≤ l.length →
      ResizeAcc l nc n ((l.take n).foldl
        (fun acc e => if e.state = EntryState.occupied then
          acc.set (findSlotAux acc nc nc (fnv1a_hash e.key &&& (nc - 1))) e
        else acc) (List.replicate nc default)) := by
  intro n
  induction n with
  | zero =>
    intro _
    rw [List.take_zero, List.foldl_nil]
    refine ⟨List.length_replicate nc default, ?_, ?_, ?_, ?_, ?_, ?_⟩
    · rw [countState_replicate nc .occupied (by simp)]
      rfl
    · exact countState_replicate nc .tombstone (by simp)
    · intro s hs hocc
      rw [getD_replicate] at hocc
      simp at hocc
    · intro s t hs ht hos hot
      rw [getD_replicate] at hos
      simp at hos
    · intro s hs hocc
      rw [getD_replicate] at hocc
      simp at hocc
    · intro m hm _ _
      omega
  | succ n ihn =>
    intro hn1
    have hn : n < l.length := by omega
    have hacc := ihn (by omega)
    have hg : l.getD n default = l[n] := by
      rw [getD_eq_get l n hn]; rfl
    have hstep : (l.take (n + 1)).foldl
        (fun acc e => if e.state = EntryState.occupied then
          acc.set (findSlotAux acc nc nc (fnv1a_hash e.key &&& (nc - 1))) e
        else acc) (List.replicate nc default)
        = (fun acc e => if e.state = EntryState.occupied then
          acc.set (findSlotAux acc nc nc (fnv1a_hash e.key &&& (nc - 1))) e
        else acc) ((l.take n).foldl
        (fun acc e => if e.state = EntryState.occupied then
          acc.set (findSlotAux acc nc nc (fnv1a_hash e.key &&& (nc - 1))) e
        else acc) (List.replicate nc default)) (l.getD n default) := by
      rw [List.take_succ, List.getElem?_eq_getElem hn]
      rw [List.foldl_append]
      rw [hg]
      rfl
    rw [hstep]
    generalize hAdef : (l.take n).foldl
        (fun acc e => if e.state = EntryState.occupied then
          acc.set (findSlotAux acc nc nc (fnv1a_hash e.key &&& (nc - 1))) e
        else acc) (List.replicate nc default) = A at hacc ⊢
    obtain ⟨hlenA, hoccA, htombA, hchA, hndA, horg, hpres⟩ := hacc
    show ResizeAcc l nc (n + 1)
      (if (l.getD n default).state = EntryState.occupied then
        A.set (findSlotAux A nc nc
          (fnv1a_hash (l.getD n default).key &&& (nc - 1)))
          (l.getD n default)
      else A)
    by_cases he : (l.getD n default).state = EntryState.occupied
    · rw [if_pos he]
      have hfullA : countState A .occupied < nc := by
        have h1 := countState_take_le l n .occupied
        omega
      have hi0 : fnv1a_hash (l.getD n default).key % nc < nc :=
        Nat.mod_lt _ hpos
      obtain ⟨d, _, hdlt, hfind, hfree, hpath⟩ := findSlotAux_spec A nc k hk
        hpos hlenA hfullA (fnv1a_hash (l.getD n default).key % nc) hi0 nc 0
        (by omega) (fun j2 hj2 => absurd hj2 (by omega))
      have hzero : (fnv1a_hash (l.getD n default).key % nc + 0) % nc
          = fnv1a_hash (l.getD n default).key % nc := by
        rw [Nat.add_zero]
        exact Nat.mod_eq_of_lt hi0
      rw [hzero] at hfind
      have hmaskArg : fnv1a_hash (l.getD n default).key &&& (nc - 1)
          = fnv1a_hash (l.getD n default).key % nc := by
        rw [hk]; exact land_two_pow_sub_one _ k
      rw [hmaskArg, hfind]
      set T := (fnv1a_hash (l.getD n default).key % nc + d) % nc with hTdef
      have hT : T < nc := by rw [hTdef]; exact Nat.mod_lt _ hpos
      have hTlen : T < A.length := by rw [hlenA]; exact hT
      have hcsO := countState_set A T (l.getD n default) .occupied hTlen
      have hcsT := countState_set A T (l.getD n default) .tombstone hTlen
      have i1 : (if (A.getD T default).state = EntryState.occupied
          then 1 else 0) = 0 := if_neg hfree
      have i2 : (if (l.getD n default).state = EntryState.occupied
          then 1 else 0) = 1 := if_pos he
      have hTnotTomb : (A.getD T default).state ≠ EntryState.tombstone := by
        intro hts
        have h2 := countState_pos A T .tombstone hTlen hts
        omega
      have i3 : (if (A.getD T default).state = EntryState.tombstone
          then 1 else 0) = 0 := if_neg hTnotTomb
      have i4 : (if (l.getD n default).state = EntryState.tombstone
          then 1 else 0) = 0 := if_neg (by rw [he]; simp)
      rw [i1, i2] at hcsO
      rw [i3, i4] at hcsT
      refine ⟨?_, ?_, ?_, ?_, ?_, ?_, ?_⟩
      · rw [List.length_set]; exact hlenA
      · rw [countState_take_succ l n hn .occupied, if_pos he]
        omega
      · omega
      · refine chainOKL_insert A nc T (l.getD n default) hchA hTlen he
          ⟨d, hdlt, by rw [hTdef]; rfl, ?_⟩
        intro i5 hi5
        have h2 := hpath i5 hi5
        show (A.getD ((fnv1a_hash (l.getD n default).key % nc + i5) % nc)
          default).state ≠ EntryState.entryEmpty
        rw [h2]; simp
      · refine nodupKeysL_insert A nc T (l.getD n default) hndA hTlen ?_
        intro u hu hou hkeq
        obtain ⟨m, hm1, hm2, hm3⟩ := horg u hu hou
        rw [← hm3] at hkeq
        refine hsrc m n hm1 hn ?_ he hkeq
        rw [hm3]; exact hou
      · intro s hs ho
        by_cases hsT : s = T
        · refine ⟨n, by omega, hn, ?_⟩
          rw [hsT, getD_set_self _ _ _ hTlen]
        · rw [getD_set_ne _ _ _ _ (fun h2 => hsT h2.symm)] at ho ⊢
          obtain ⟨m, hm1, hm2, hm3⟩ := horg s hs ho
          exact ⟨m, by omega, hm2, hm3⟩
      · intro m hm hml ho
        rcases Nat.lt_or_ge m n with h | h
        · obtain ⟨s, hs, hseq⟩ := hpres m h hml ho
          refine ⟨s, hs, ?_⟩
          have hsT : s ≠ T := by
            intro hst
            rw [hst] at hseq
            rw [hseq] at hfree
            exact hfree ho
          rw [getD_set_ne _ _ _ _ (fun h2 => hsT h2.symm)]
          exact hseq
        · have hmn : m = n := by omega
          refine ⟨T, hT, ?_⟩
          rw [getD_set_self _ _ _ hTlen, hmn]
    · rw [if_neg he]
      refine ⟨hlenA, ?_, htombA, hchA, hndA, ?_, ?_⟩
      · rw [countState_take_succ l n hn .occupied, if_neg he]
        omega
      · intro s hs ho
        obtain ⟨m, hm1, hm2, hm3⟩ := horg s hs ho
        exact ⟨m, by omega, hm2, hm3⟩
      · intro m hm hml ho
        rcases Nat.lt_or_ge m n with h | h
        · exact hpres m h hml ho
        · have hmn : m = n := by omega
          rw [hmn] at ho
          exact absurd ho he


/-- `ht_resize` preserves the invariant, doubles the capacity, keeps
`count`, sets `used = count`, drops all tombstones, and retains every
occupied entry. -/
theorem resize_spec (ht : Hashtable) (inv : HtInv ht) :
    HtInv (ht_resize ht) ∧
    (ht_resize ht).capacity = 2 * ht.capacity ∧
    (ht_resize ht).count = ht.count ∧
    (ht_resize ht).used = ht.count ∧
    countState (ht_resize ht).entries .tombstone = 0 ∧
    (∀ m, m < ht.capacity →
      (ht.entries.getD m default).state = .occupied →
      ∃ s, s < (ht_resize ht).capacity ∧
        (ht_resize ht).entries.getD s default
          = ht.entries.getD m default) := by
  obtain ⟨k, hk⟩ := inv.pow
  have hk2 : ht.capacity * 2 = 2 ^ (k + 1) := by rw [hk]; ring
  have hpos2 : 0 < ht.capacity * 2 := by
    have := inv.capPos; omega
  have hsrc : ∀ m m2, m < m2 → m2 < ht.entries.length →
      (ht.entries.getD m default).state = .occupied →
      (ht.entries.getD m2 default).state = .occupied →
      (ht.entries.getD m default).key
        ≠ (ht.entries.getD m2 default).key := by
    intro m m2 hmm2 hm2 ho1 ho2 hkeq
    have hm2c : m2 < ht.capacity := by rw [← inv.len]; exact hm2
    exact absurd (inv.nodup m m2 (by omega) hm2c ho1 ho2 hkeq) (by omega)
  have hcnt : countState ht.entries .occupied < ht.capacity * 2 := by
    have h1 := inv.usedEq
    have h3 := inv.usedLt
    omega
  have hfold := resize_fold_spec ht.entries (ht.capacity * 2) (k + 1) hk2
    hpos2 hsrc hcnt ht.entries.length (Nat.le_refl _)
  rw [List.take_length] at hfold
  obtain ⟨hlen, hocc2, htomb, hch, hnd, _horg, hpres⟩ := hfold
  rw [List.take_length] at hocc2
  have hent : (ht_resize ht).entries = ht.entries.foldl
      (fun acc e => if e.state = EntryState.occupied then
        acc.set (findSlotAux acc (ht.capacity * 2) (ht.capacity * 2)
          (fnv1a_hash e.key &&& (ht.capacity * 2 - 1))) e
      else acc) (List.replicate (ht.capacity * 2) default) := rfl
  rw [← hent] at hlen hocc2 htomb hch hnd hpres
  have hcap : (ht_resize ht).capacity = ht.capacity * 2 := rfl
  have hcnt2 : (ht_resize ht).count = ht.count := rfl
  have husd : (ht_resize ht).used = ht.count := rfl
  refine ⟨⟨?_, ⟨k + 1, ?_⟩, ?_, ?_, ?_, ?_, ?_, ?_⟩, ?_, hcnt2, husd,
    htomb, ?_⟩
  · rw [hcap]; exact hlen
  · rw [hcap]; exact hk2
  · rw [hcap]; have := inv.capGe; omega
  · rw [hcnt2, hocc2]; exact inv.countEq
  · rw [husd, hocc2, htomb]
    have := inv.countEq; omega
  · rw [husd, hcap]
    have h1 := inv.countEq
    have h2 := inv.usedEq
    have h3 := inv.usedLt
    omega
  · rw [hcap]; exact hch
  · rw [hcap]; exact hnd
  · rw [hcap]; ring
  · intro m hm ho
    rw [hcap]
    exact hpres m (by rw [inv.len]; exact hm) (by rw [inv.len]; exact hm) ho


/-- The entry written by `ht_set`: occupied, fresh key/value, no
expiry. -/
def setEntry (key value : List Nat) : HtEntry :=
  { state := .occupied, key := key, value := value, expire_at := -1 }

/-- Definitional unfolding of `ht_set`. -/
theorem ht_set_eq (ht0 : Hashtable) (key value : List Nat) (now : Int) :
    ht_set ht0 key value now =
    (match probe (if loadFactorReached ht0 then ht_resize ht0 else ht0)
        key now with
      | (found, slot, ht) =>
        if found then
          (false, { ht with entries := ht.entries.set slot (setEntry key value) })
        else
          (true, { ht with
            entries := ht.entries.set slot (setEntry key value),
            count := ht.count + 1,
            used := if (ht.entries.getD slot default).state
                = EntryState.entryEmpty
              then ht.used + 1 else ht.used })) := rfl

theorem inv_ht_set (ht : Hashtable) (key value : List Nat) (now : Int)
    (inv : HtInv ht) : HtInv (ht_set ht key value now).2 := by
  have hmain : ∀ ht1 : Hashtable, HtInv ht1 →
      ht1.used + 1 < ht1.capacity →
      HtInv (match probe ht1 key now with
        | (found, slot, ht2) =>
          if found then
            (false, { ht2 with entries := ht2.entries.set slot (setEntry key value) })
          else
            (true, { ht2 with
              entries := ht2.entries.set slot (setEntry key value),
              count := ht2.count + 1,
              used := if (ht2.entries.getD slot default).state
                  = EntryState.entryEmpty
                then ht2.used + 1 else ht2.used })).2 := by
    intro ht1 inv1 hroom
    have hp := probe_spec ht1 key now inv1
    rcases hpe : probe ht1 key now with ⟨found, slot, ht2⟩
    rw [hpe] at hp
    obtain ⟨hcap, hused, hlen2, htr, hfa⟩ := hp
    have inv2 : HtInv ht2 :=
      post_inv ht1 key now found slot ht2 inv1 ⟨hcap, hused, hlen2, htr, hfa⟩
    cases found
    · -- not found: insert into the returned free slot
      obtain ⟨habs, hslot, hnocc, hchain, _⟩ := hfa rfl
      have hslot2 : slot < ht2.capacity := by rw [hcap]; exact hslot
      have hslotlen : slot < ht2.entries.length := by
        rw [inv2.len]; exact hslot2
      have hcsO := countState_set ht2.entries slot (setEntry key value)
        .occupied hslotlen
      have hcsT := countState_set ht2.entries slot (setEntry key value)
        .tombstone hslotlen
      have i2 : (if (setEntry key value).state = EntryState.occupied
          then 1 else 0) = 1 := if_pos rfl
      have i4 : (if (setEntry key value).state = EntryState.tombstone
          then 1 else 0) = 0 := if_neg (by simp [setEntry])
      have hchain2 : ∃ d, d < ht2.capacity ∧
          slot = pathIdx ht2.capacity key d ∧
          ∀ i5, i5 < d →
            (ht2.entries.getD (pathIdx ht2.capacity key i5) default).state
              ≠ .entryEmpty := by
        rw [hcap]; exact hchain
      have habs2 : ∀ t, t < ht2.capacity →
          (ht2.entries.getD t default).state = .occupied →
          (ht2.entries.getD t default).key ≠ key := by
        rw [hcap]; exact habs
      by_cases hB : (ht2.entries.getD slot default).state
          = EntryState.entryEmpty
      · show HtInv { ht2 with
          entries := ht2.entries.set slot (setEntry key value),
          count := ht2.count + 1,
          used := if (ht2.entries.getD slot default).state
              = EntryState.entryEmpty
            then ht2.used + 1 else ht2.used }
        rw [if_pos hB]
        have i1 : (if (ht2.entries.getD slot default).state
            = EntryState.occupied then 1 else 0) = 0 :=
          if_neg (by rw [hB]; simp)
        have i3 : (if (ht2.entries.getD slot default).state
            = EntryState.tombstone then 1 else 0) = 0 :=
          if_neg (by rw [hB]; simp)
        rw [i1, i2] at hcsO
        rw [i3, i4] at hcsT
        refine ⟨?_, inv2.pow, inv2.capGe, ?_, ?_, ?_, ?_, ?_⟩
        · show (ht2.entries.set slot (setEntry key value)).length
            = ht2.capacity
          rw [List.length_set]; exact inv2.len
        · show ht2.count + 1 = countState
            (ht2.entries.set slot (setEntry key value)) .occupied
          have := inv2.countEq; omega
        · show ht2.used + 1 = countState
              (ht2.entries.set slot (setEntry key value)) .occupied
            + countState
              (ht2.entries.set slot (setEntry key value)) .tombstone
          have := inv2.usedEq; omega
        · show ht2.used + 1 < ht2.capacity
          omega
        · exact chainOKL_insert ht2.entries ht2.capacity slot _
            inv2.chain hslotlen rfl hchain2
        · exact nodupKeysL_insert ht2.entries ht2.capacity slot _
            inv2.nodup hslotlen habs2
      · have htst : (ht2.entries.getD slot default).state
            = EntryState.tombstone := by
          cases hx : (ht2.entries.getD slot default).state
          · exact absurd hx hB
          · exact absurd hx hnocc
          · rfl
        show HtInv { ht2 with
          entries := ht2.entries.set slot (setEntry key value),
          count := ht2.count + 1,
          used := if (ht2.entries.getD slot default).state
              = EntryState.entryEmpty
            then ht2.used + 1 else ht2.used }
        rw [if_neg hB]
        have i1 : (if (ht2.entries.getD slot default).state
            = EntryState.occupied then 1 else 0) = 0 :=
          if_neg (by rw [htst]; simp)
        have i3 : (if (ht2.entries.getD slot default).state
            = EntryState.tombstone then 1 else 0) = 1 := if_pos htst
        rw [i1, i2] at hcsO
        rw [i3, i4] at hcsT
        have htombpos : 0 < countState ht2.entries .tombstone :=
          countState_pos ht2.entries slot .tombstone hslotlen htst
        refine ⟨?_, inv2.pow, inv2.capGe, ?_, ?_, ?_, ?_, ?_⟩
        · show (ht2.entries.set slot (setEntry key value)).length
            = ht2.capacity
          rw [List.length_set]; exact inv2.len
        · show ht2.count + 1 = countState
            (ht2.entries.set slot (setEntry key value)) .occupied
          have := inv2.countEq; omega
        · show ht2.used = countState
              (ht2.entries.set slot (setEntry key value)) .occupied
            + countState
              (ht2.entries.set slot (setEntry key value)) .tombstone
          have := inv2.usedEq; omega
        · show ht2.used < ht2.capacity
          exact inv2.usedLt
        · exact chainOKL_insert ht2.entries ht2.capacity slot _
            inv2.chain hslotlen rfl hchain2
        · exact nodupKeysL_insert ht2.entries ht2.capacity slot _
            inv2.nodup hslotlen habs2
    · -- found: overwrite the live entry, key unchanged
      obtain ⟨heq, hslot, hocc, hkey, _⟩ := htr rfl
      show HtInv { ht2 with
        entries := ht2.entries.set slot (setEntry key value) }
      rw [heq]
      have hslotlen : slot < ht1.entries.length := by
        rw [inv1.len]; exact hslot
      have hcsO := countState_set ht1.entries slot (setEntry key value)
        .occupied hslotlen
      have hcsT := countState_set ht1.entries slot (setEntry key value)
        .tombstone hslotlen
      have i1 : (if (ht1.entries.getD slot default).state
          = EntryState.occupied then 1 else 0) = 1 := if_pos hocc
      have i2 : (if (setEntry key value).state = EntryState.occupied
          then 1 else 0) = 1 := if_pos rfl
      have i3 : (if (ht1.entries.getD slot default).state
          = EntryState.tombstone then 1 else 0) = 0 :=
        if_neg (by rw [hocc]; simp)
      have i4 : (if (setEntry key value).state = EntryState.tombstone
          then 1 else 0) = 0 := if_neg (by simp [setEntry])
      rw [i1, i2] at hcsO
      rw [i3, i4] at hcsT
      refine ⟨?_, inv1.pow, inv1.capGe, ?_, ?_, inv1.usedLt, ?_, ?_⟩
      · show (ht1.entries.set slot (setEntry key value)).length
          = ht1.capacity
        rw [List.length_set]; exact inv1.len
      · show ht1.count = countState
          (ht1.entries.set slot (setEntry key value)) .occupied
        have := inv1.countEq; omega
      · show ht1.used = countState
            (ht1.entries.set slot (setEntry key value)) .occupied
          + countState
            (ht1.entries.set slot (setEntry key value)) .tombstone
        have := inv1.usedEq; omega
      · exact chainOKL_set_preserve ht1.entries ht1.capacity slot _
          inv1.chain hslotlen (by simp [setEntry])
          (fun _ => ⟨hkey.symm, hocc⟩)
      · exact nodupKeysL_set_preserve ht1.entries ht1.capacity slot _
          inv1.nodup hslotlen (fun _ => ⟨hkey.symm, hocc⟩)
  by_cases hLF : loadFactorReached ht = true
  · obtain ⟨inv1, hcap2, hcnt2, husd2, -, -⟩ := resize_spec ht inv
    have hroom : (ht_resize ht).used + 1 < (ht_resize ht).capacity := by
      rw [husd2, hcap2]
      have h1 := inv.usedEq
      have h3 := inv.usedLt
      have h4 := inv.countEq
      omega
    rw [ht_set_eq, if_pos hLF]
    exact hmain (ht_resize ht) inv1 hroom
  · have hLF2 : ¬(7 * ht.capacity ≤ 10 * ht.used) := by
      intro h
      exact hLF (by rw [loadFactorReached]; exact decide_eq_true h)
    have hroom : ht.used + 1 < ht.capacity := by
      have h4 := inv.capGe
      omega
    rw [ht_set_eq, if_neg hLF]
    exact hmain ht inv hroom


theorem inv_ht_create : HtInv ht_create := by
  refine ⟨rfl, ⟨6, rfl⟩, by decide, rfl, rfl, by decide, ?_, ?_⟩
  · intro s hs hocc
    rw [show ht_create.entries.getD s default = default from
      getD_replicate 64 s] at hocc
    simp at hocc
  · intro s t hs ht hos hot
    rw [show ht_create.entries.getD s default = default from
      getD_replicate 64 s] at hos
    simp at hos

/-- Every table reachable through the hashtable API satisfies the
structural invariant. -/
theorem reachable_inv (ht : Hashtable) (h : Reachable ht) : HtInv ht := by
  induction h with
  | create => exact inv_ht_create
  | hset key value now _ ih => exact inv_ht_set _ key value now ih
  | hget key now _ ih => exact inv_ht_get _ key now ih
  | hdelete key now _ ih => exact inv_ht_delete _ key now ih
  | hexists key now _ ih => exact inv_ht_exists _ key now ih
  | hsetExpire key e now _ ih => exact inv_ht_set_expire _ key e now ih
  | hgetExpire key now _ ih => exact inv_ht_get_expire _ key now ih
  | hiterNext index now _ ih => exact inv_ht_iter_next _ index now ih

/-- C3: after any sequence of keyspace operations, every occupied slot
`s` is reached by the linear probe of its key from
`hash(key) mod capacity`, crossing only occupied slots with other keys
or tombstones, never an empty slot. -/
theorem c3_probe_chain (ht : Hashtable) (h : Reachable ht) (s : Nat)
    (hs : s < ht.capacity)
    (hocc : (ht.entries.getD s default).state = EntryState.occupied) :
    ∃ d, d < ht.capacity ∧
      s = pathIdx ht.capacity (ht.entries.getD s default).key d ∧
      ∀ i, i < d →
        ((ht.entries.getD
            (pathIdx ht.capacity (ht.entries.getD s default).key i)
            default).state = EntryState.occupied ∧
          (ht.entries.getD
            (pathIdx ht.capacity (ht.entries.getD s default).key i)
            default).key ≠ (ht.entries.getD s default).key) ∨
        (ht.entries.getD
          (pathIdx ht.capacity (ht.entries.getD s default).key i)
          default).state = EntryState.tombstone := by
  have inv := reachable_inv ht h
  obtain ⟨d, hd, hde, hpath⟩ := inv.chain s hs hocc
  refine ⟨d, hd, hde, ?_⟩
  intro i hi
  have hne := hpath i hi
  cases hx : (ht.entries.getD
      (pathIdx ht.capacity (ht.entries.getD s default).key i)
      default).state
  · exact absurd hx hne
  · left
    refine ⟨rfl, ?_⟩
    intro hkeq
    have hplt := pathIdx_lt ht.capacity (ht.entries.getD s default).key i
      inv.capPos
    have heqs := inv.nodup _ s hplt hs hx hocc hkeq
    have : i = d := by
      apply pathIdx_inj ht.capacity (ht.entries.getD s default).key i d
        (by omega) hd
      rw [heqs]; exact hde
    omega
  · right; rfl


theorem c3_probe_chain_witness :
    ((44 : Nat) < (ht_set ht_create [97] [98] 0).2.capacity ∧
      (((ht_set ht_create [97] [98] 0).2.entries.getD 44 default).state
        = EntryState.occupied)) ∧
    (∃ d, d < (ht_set ht_create [97] [98] 0).2.capacity ∧
      44 = pathIdx (ht_set ht_create [97] [98] 0).2.capacity
        ((ht_set ht_create [97] [98] 0).2.entries.getD 44 default).key d ∧
      ∀ i, i < d →
        (((ht_set ht_create [97] [98] 0).2.entries.getD
            (pathIdx (ht_set ht_create [97] [98] 0).2.capacity
              ((ht_set ht_create [97] [98] 0).2.entries.getD 44
                default).key i)
            default).state = EntryState.occupied ∧
          ((ht_set ht_create [97] [98] 0).2.entries.getD
            (pathIdx (ht_set ht_create [97] [98] 0).2.capacity
              ((ht_set ht_create [97] [98] 0).2.entries.getD 44
                default).key i)
            default).key ≠ ((ht_set ht_create [97] [98] 0).2.entries.getD
              44 default).key) ∨
        ((ht_set ht_create [97] [98] 0).2.entries.getD
          (pathIdx (ht_set ht_create [97] [98] 0).2.capacity
            ((ht_set ht_create [97] [98] 0).2.entries.getD 44
              default).key i)
          default).state = EntryState.tombstone) :=
  ⟨⟨by decide, by decide⟩,
    c3_probe_chain (ht_set ht_create [97] [98] 0).2
      (Reachable.hset [97] [98] 0 Reachable.create) 44
      (by decide) (by decide)⟩

/-- C4: after every keyspace operation, `count` equals the number of
occupied slots (each of which holds an entry not yet observed to be
expired), `used` equals occupied plus tombstone slots, and
`count ≤ used ≤ capacity`. -/
theorem c4_counters (ht : Hashtable) (h : Reachable ht) :
    ht.count = countState ht.entries .occupied ∧
    ht.used = countState ht.entries .occupied
      + countState ht.entries .tombstone ∧
    ht.count ≤ ht.used ∧ ht.used ≤ ht.capacity := by
  have inv := reachable_inv ht h
  refine ⟨inv.countEq, inv.usedEq, ?_, ?_⟩
  · have h1 := inv.countEq
    have h2 := inv.usedEq
    omega
  · exact Nat.le_of_lt inv.usedLt

theorem c4_counters_witness :
    (ht_delete (ht_set ht_create [97] [98] 0).2 [97] 0).2.count
      = countState
        (ht_delete (ht_set ht_create [97] [98] 0).2 [97] 0).2.entries
        .occupied ∧
    (ht_delete (ht_set ht_create [97] [98] 0).2 [97] 0).2.used
      = countState
        (ht_delete (ht_set ht_create [97] [98] 0).2 [97] 0).2.entries
        .occupied
      + countState
        (ht_delete (ht_set ht_create [97] [98] 0).2 [97] 0).2.entries
        .tombstone ∧
    (ht_delete (ht_set ht_create [97] [98] 0).2 [97] 0).2.count
      ≤ (ht_delete (ht_set ht_create [97] [98] 0).2 [97] 0).2.used ∧
    (ht_delete (ht_set ht_create [97] [98] 0).2 [97] 0).2.used
      ≤ (ht_delete (ht_set ht_create [97] [98] 0).2 [97] 0).2.capacity :=
  c4_counters (ht_delete (ht_set ht_create [97] [98] 0).2 [97] 0).2
    (Reachable.hdelete [97] 0 (Reachable.hset [97] [98] 0 Reachable.create))


/-- A reachable table holding 45 single-byte keys: 45 of 64 slots used,
which meets the 0.7 load factor. -/
def c9State : Hashtable :=
  (ht_set (ht_set (ht_set (ht_set (ht_set (ht_set (ht_set (ht_set (ht_set (ht_set (ht_set (ht_set (ht_set (ht_set (ht_set (ht_set (ht_set (ht_set (ht_set (ht_set (ht_set (ht_set (ht_set (ht_set (ht_set (ht_set (ht_set (ht_set (ht_set (ht_set (ht_set (ht_set (ht_set (ht_set (ht_set (ht_set (ht_set (ht_set (ht_set (ht_set (ht_set (ht_set (ht_set (ht_set (ht_set ht_create [0] [] 0).2 [1] [] 0).2 [2] [] 0).2 [3] [] 0).2 [4] [] 0).2 [5] [] 0).2 [6] [] 0).2 [7] [] 0).2 [8] [] 0).2 [9] [] 0).2 [10] [] 0).2 [11] [] 0).2 [12] [] 0).2 [13] [] 0).2 [14] [] 0).2 [15] [] 0).2 [16] [] 0).2 [17] [] 0).2 [18] [] 0).2 [19] [] 0).2 [20] [] 0).2 [21] [] 0).2 [22] [] 0).2 [23] [] 0).2 [24] [] 0).2 [25] [] 0).2 [26] [] 0).2 [27] [] 0).2 [28] [] 0).2 [29] [] 0).2 [30] [] 0).2 [31] [] 0).2 [32] [] 0).2 [33] [] 0).2 [34] [] 0).2 [35] [] 0).2 [36] [] 0).2 [37] [] 0).2 [38] [] 0).2 [39] [] 0).2 [40] [] 0).2 [41] [] 0).2 [42] [] 0).2 [43] [] 0).2 [44] [] 0).2

theorem c9_state_reachable : Reachable c9State :=
  Reachable.hset [44] [] 0 (Reachable.hset [43] [] 0 (Reachable.hset [42] [] 0 (Reachable.hset [41] [] 0 (Reachable.hset [40] [] 0 (Reachable.hset [39] [] 0 (Reachable.hset [38] [] 0 (Reachable.hset [37] [] 0 (Reachable.hset [36] [] 0 (Reachable.hset [35] [] 0 (Reachable.hset [34] [] 0 (Reachable.hset [33] [] 0 (Reachable.hset [32] [] 0 (Reachable.hset [31] [] 0 (Reachable.hset [30] [] 0 (Reachable.hset [29] [] 0 (Reachable.hset [28] [] 0 (Reachable.hset [27] [] 0 (Reachable.hset [26] [] 0 (Reachable.hset [25] [] 0 (Reachable.hset [24] [] 0 (Reachable.hset [23] [] 0 (Reachable.hset [22] [] 0 (Reachable.hset [21] [] 0 (Reachable.hset [20] [] 0 (Reachable.hset [19] [] 0 (Reachable.hset [18] [] 0 (Reachable.hset [17] [] 0 (Reachable.hset [16] [] 0 (Reachable.hset [15] [] 0 (Reachable.hset [14] [] 0 (Reachable.hset [13] [] 0 (Reachable.hset [12] [] 0 (Reachable.hset [11] [] 0 (Reachable.hset [10] [] 0 (Reachable.hset [9] [] 0 (Reachable.hset [8] [] 0 (Reachable.hset [7] [] 0 (Reachable.hset [6] [] 0 (Reachable.hset [5] [] 0 (Reachable.hset [4] [] 0 (Reachable.hset [3] [] 0 (Reachable.hset [2] [] 0 (Reachable.hset [1] [] 0 (Reachable.hset [0] [] 0 (Reachable.create)))))))))))))))))))))))))))))))))))))))))))))

/-- C9 (amended): when `ht_set` is entered with
`used >= 0.7 * capacity`, the table is resized first — capacity
doubles, every occupied entry is reinserted on a fresh probe chain,
tombstones are dropped, and afterwards `used = count`.  `ht_delete`
and `ht_set_expire` never resize, whatever the load factor. -/
theorem c9_resize_on_set_only (ht : Hashtable) (h : Reachable ht)
    (key value : List Nat) (now : Int)
    (hthr : loadFactorReached ht = true) :
    (ht_set ht key value now).2.capacity = 2 * ht.capacity ∧
    (ht_resize ht).capacity = 2 * ht.capacity ∧
    (ht_resize ht).used = (ht_resize ht).count ∧
    countState (ht_resize ht).entries .tombstone = 0 ∧
    (∀ m, m < ht.capacity →
      (ht.entries.getD m default).state = .occupied →
      ∃ s, s < (ht_resize ht).capacity ∧
        (ht_resize ht).entries.getD s default
          = ht.entries.getD m default) ∧
    (∀ k2, (ht_delete ht k2 now).2.capacity = ht.capacity) ∧
    (∀ k2 x, (ht_set_expire ht k2 x now).capacity = ht.capacity) := by
  have inv := reachable_inv ht h
  obtain ⟨inv1, hcap2, hcnt2, husd2, htomb2, hpres2⟩ := resize_spec ht inv
  refine ⟨?_, hcap2, by rw [husd2, hcnt2], htomb2, hpres2, ?_, ?_⟩
  · rw [ht_set_eq, if_pos hthr]
    have hp := probe_spec (ht_resize ht) key now inv1
    rcases hpe : probe (ht_resize ht) key now with ⟨found, slot, ht2⟩
    rw [hpe] at hp
    obtain ⟨hcap, _, _, _, _⟩ := hp
    cases found
    · show ht2.capacity = 2 * ht.capacity
      rw [hcap, hcap2]
    · show ht2.capacity = 2 * ht.capacity
      rw [hcap, hcap2]
  · intro k2
    unfold ht_delete
    have hp := probe_spec ht k2 now inv
    rcases hpe : probe ht k2 now with ⟨found, slot, ht2⟩
    rw [hpe] at hp
    obtain ⟨hcap, _, _, _, _⟩ := hp
    cases found
    · show ht2.capacity = ht.capacity
      exact hcap
    · show ht2.capacity = ht.capacity
      exact hcap
  · intro k2 x
    unfold ht_set_expire
    have hp := probe_spec ht k2 now inv
    rcases hpe : probe ht k2 now with ⟨found, slot, ht2⟩
    rw [hpe] at hp
    obtain ⟨hcap, _, _, _, _⟩ := hp
    cases found
    · show ht2.capacity = ht.capacity
      exact hcap
    · show ht2.capacity = ht.capacity
      exact hcap

set_option maxRecDepth 100000 in
theorem c9_resize_on_set_only_witness :
    loadFactorReached c9State = true ∧
    (ht_set c9State [45] [] 0).2.capacity = 2 * c9State.capacity :=
  ⟨by decide,
    (c9_resize_on_set_only c9State c9_state_reachable [45] [] 0
      (by decide)).1⟩

set_option maxRecDepth 100000 in
/-- Counterexample to C9 as stated: `c9State` is a reachable table at
the load-factor threshold, yet entering the mutating operations
`ht_delete` and `ht_set_expire` performs no resize; only `ht_set`
does. -/
theorem c9_counterexample :
    loadFactorReached c9State = true ∧
    c9State.capacity = 64 ∧
    (ht_delete c9State [0] 0).2.capacity = 64 ∧
    (ht_set_expire c9State [1] 999 0).capacity = 64 ∧
    (ht_set c9State [45] [] 0).2.capacity = 128 :=
  ⟨by decide, by decide, by decide, by decide, by decide⟩


/-! ### Commands (commands.c), with replies as `RespValue` and
`current_time_ms()` passed in as `now`. -/

def errNotInteger : List Nat :=
  strBytes "ERR value is not an integer or out of range"

def i64Max : Int := 2 ^ 63 - 1

def i64Min : Int := -(2 ^ 63)

/-- The digit loop of `parse_int64`.  The negative-overflow test in the
source has an empty body (its comment promises a \"more robust check
below\" that does not exist), so only the positive check is live; the
`int64_t` accumulator wraps. -/
def parse_int64_loop (negative : Bool) : List Nat → Int → Option Int
  | [], result => some result
  | b :: rest, result =>
    if b < 48 ∨ 57 < b then none
    else
      if negative = false ∧ (i64Max - ((b : Int) - 48)).tdiv 10 < result
      then none
      else parse_int64_loop negative rest
        (wrap64 (result * 10 + ((b : Int) - 48)))

/-- `parse_int64` of commands.c. -/
def parse_int64 (data : List Nat) : Option Int :=
  if data.length = 0 then none
  else if data.getD 0 0 = 45 then
    if data.length = 1 then none
    else (parse_int64_loop true (data.drop 1) 0).map (fun r => wrap64 (-r))
  else parse_int64_loop false data 0

/-- `cmd_ttl` of commands.c. -/
def cmd_ttl (store : Hashtable) (key : List Nat) (now : Int) :
    RespValue × Hashtable :=
  match ht_exists store key now with
  | (found, st1) =>
    if found then
      match ht_get_expire st1 key now with
      | (expire_at, st2) =>
        if expire_at = -1 then (.integer (-1), st2)
        else
          let remaining_ms := wrap64 (expire_at - now)
          if remaining_ms ≤ 0 then
            match ht_delete st2 key now with
            | (_, st3) => (.integer (-2), st3)
          else
            (.integer ((wrap64 (remaining_ms + 999)).tdiv 1000), st2)
    else (.integer (-2), st1)

theorem ht_exists_eq (ht : Hashtable) (key : List Nat) (now : Int) :
    ht_exists ht key now
      = ((probe ht key now).1, (probe ht key now).2.2) := by
  unfold ht_exists
  rcases probe ht key now with ⟨f, s, h⟩
  rfl

theorem ht_get_expire_eq (ht : Hashtable) (key : List Nat) (now : Int) :
    ht_get_expire ht key now
      = (if (probe ht key now).1 then
          ((probe ht key now).2.2.entries.getD (probe ht key now).2.1
            default).expire_at
        else -1, (probe ht key now).2.2) := by
  unfold ht_get_expire
  rcases probe ht key now with ⟨f, s, h⟩
  cases f <;> rfl

theorem cmd_ttl_notfound (store : Hashtable) (key : List Nat) (now : Int)
    (slot : Nat) (ht2 : Hashtable)
    (hpe : probe store key now = (false, slot, ht2)) :
    cmd_ttl store key now = (RespValue.integer (-2), ht2) := by
  simp only [cmd_ttl, ht_exists_eq, hpe]
  rfl

theorem cmd_ttl_found (store : Hashtable) (key : List Nat) (now : Int)
    (slot : Nat)
    (hpe : probe store key now = (true, slot, store)) :
    cmd_ttl store key now =
    (if (store.entries.getD slot default).expire_at = -1 then
      (RespValue.integer (-1), store)
    else if wrap64 ((store.entries.getD slot default).expire_at - now)
        ≤ 0 then
      (RespValue.integer (-2), (ht_delete store key now).2)
    else
      (RespValue.integer ((wrap64
        (wrap64 ((store.entries.getD slot default).expire_at - now)
          + 999)).tdiv 1000), store)) := by
  simp only [cmd_ttl, ht_exists_eq, ht_get_expire_eq, hpe]
  rcases hd : ht_delete store key now with ⟨b, st3⟩
  rfl


theorem no_live_when_notfound (store : Hashtable) (key : List Nat)
    (now : Int) (slot : Nat) (ht2 : Hashtable)
    (hp : ProbePost store key now (false, slot, ht2)) :
    ∀ s, s < store.capacity →
      (store.entries.getD s default).state = EntryState.occupied →
      (store.entries.getD s default).key = key →
      is_expired (store.entries.getD s default) now = false → False := by
  intro s hs hocc hkey hlive
  obtain ⟨_, _, _, _, hfa⟩ := hp
  obtain ⟨habs, _, _, _, hdisj⟩ := hfa rfl
  rcases hdisj with h1 | ⟨se, hse, hocc2, hkey2, hexp2, hent, _, _⟩
  · rw [h1] at habs
    exact habs s hs hocc hkey
  · by_cases hsse : s = se
    · rw [hsse] at hlive
      rw [hlive] at hexp2
      simp at hexp2
    · have hgs : ht2.entries.getD s default
          = store.entries.getD s default := by
        rw [hent]
        exact getD_set_ne _ _ _ _ (fun h2 => hsse h2.symm)
      exact habs s hs (by rw [hgs]; exact hocc) (by rw [hgs]; exact hkey)

/-- C7 (amended): for a TTL lookup at time `now`: an absent key replies
`-2` and leaves the table unchanged; a live key without expiry replies
`-1`; a key whose expiry has passed is lazily deleted and the reply is
`-2`; a live key with expiry replies the integer
`q = ceil(remaining_ms/1000)`, characterised by
`1000*(q-1) < remaining_ms ≤ 1000*q`, provided
`remaining_ms ≤ 2^63 - 1000`.  The proviso is necessary: for larger
remainders the `int64_t` addition `remaining_ms + 999` in cmd_ttl
wraps and the reply is a negative number, not the ceiling. -/
theorem c7_ttl (store : Hashtable) (h : Reachable store) (key : List Nat)
    (now : Int) :
    ((¬ ∃ s, s < store.capacity ∧
        (store.entries.getD s default).state = EntryState.occupied ∧
        (store.entries.getD s default).key = key) →
      cmd_ttl store key now = (RespValue.integer (-2), store)) ∧
    (∀ s, s < store.capacity →
      (store.entries.getD s default).state = EntryState.occupied →
      (store.entries.getD s default).key = key →
      is_expired (store.entries.getD s default) now = false →
      (store.entries.getD s default).expire_at = -1 →
      cmd_ttl store key now = (RespValue.integer (-1), store)) ∧
    (∀ s, s < store.capacity →
      (store.entries.getD s default).state = EntryState.occupied →
      (store.entries.getD s default).key = key →
      is_expired (store.entries.getD s default) now = true →
      (cmd_ttl store key now).1 = RespValue.integer (-2) ∧
      (cmd_ttl store key now).2.count = store.count - 1 ∧
      (∀ t, t < store.capacity →
        ((cmd_ttl store key now).2.entries.getD t default).state
          = EntryState.occupied →
        ((cmd_ttl store key now).2.entries.getD t default).key ≠ key)) ∧
    (∀ s, s < store.capacity →
      (store.entries.getD s default).state = EntryState.occupied →
      (store.entries.getD s default).key = key →
      is_expired (store.entries.getD s default) now = false →
      (store.entries.getD s default).expire_at ≠ -1 →
      (store.entries.getD s default).expire_at - now ≤ 2 ^ 63 - 1000 →
      ∃ q, cmd_ttl store key now = (RespValue.integer q, store) ∧
        1000 * (q - 1) < (store.entries.getD s default).expire_at - now ∧
        (store.entries.getD s default).expire_at - now ≤ 1000 * q) := by
  have inv := reachable_inv store h
  have hp := probe_spec store key now inv
  rcases hpe : probe store key now with ⟨found, slot, ht2⟩
  rw [hpe] at hp
  refine ⟨?_, ?_, ?_, ?_⟩
  · intro habs0
    obtain ⟨hcap, hused, hlen, htr, hfa⟩ := hp
    cases found
    · obtain ⟨habs, _, _, _, hdisj⟩ := hfa rfl
      have htbl : ht2 = store := by
        rcases hdisj with h1 | ⟨se, hse, hocc, hkey, _, _, _, _⟩
        · exact h1
        · exact absurd ⟨se, hse, hocc, hkey⟩ habs0
      rw [htbl] at hpe
      rw [cmd_ttl_notfound store key now slot store hpe]
    · obtain ⟨_, hslot, hocc, hkey, _⟩ := htr rfl
      exact absurd ⟨slot, hslot, hocc, hkey⟩ habs0
  · intro s hs hocc hkey hlive hexp
    cases found
    · exact absurd (no_live_when_notfound store key now slot ht2 hp
        s hs hocc hkey hlive) (by simp)
    · obtain ⟨hcap, hused, hlen, htr, hfa⟩ := hp
      obtain ⟨heq, hslot, hocc2, hkey2, _⟩ := htr rfl
      rw [heq] at hpe
      have hss : slot = s := inv.nodup slot s hslot hs hocc2 hocc
        (by rw [hkey2, hkey])
      rw [cmd_ttl_found store key now slot hpe]
      rw [hss, if_pos hexp]
  · intro s hs hocc hkey hexpired
    obtain ⟨hcap, hused, hlen, htr, hfa⟩ := hp
    cases found
    · obtain ⟨habs, _, _, _, hdisj⟩ := hfa rfl
      rcases hdisj with h1 | ⟨se, hse, hocc2, hkey2, _, hent, hcnt, hcpos⟩
      · exfalso
        rw [h1] at habs
        exact habs s hs hocc hkey
      · have hct := cmd_ttl_notfound store key now slot ht2 hpe
        refine ⟨by rw [hct], by rw [hct]; exact hcnt, ?_⟩
        intro t htl ho
        rw [hct] at ho ⊢
        exact habs t htl ho
    · exfalso
      obtain ⟨heq, hslot, hocc2, hkey2, hnexp⟩ := htr rfl
      rw [heq] at hpe
      have hss : slot = s := inv.nodup slot s hslot hs hocc2 hocc
        (by rw [hkey2, hkey])
      rw [hss] at hnexp
      rw [hexpired] at hnexp
      simp at hnexp
  · intro s hs hocc hkey hlive hexp hbound
    cases found
    · exact absurd (no_live_when_notfound store key now slot ht2 hp
        s hs hocc hkey hlive) (by simp)
    · obtain ⟨hcap, hused, hlen, htr, hfa⟩ := hp
      obtain ⟨heq, hslot, hocc2, hkey2, _⟩ := htr rfl
      rw [heq] at hpe
      have hss : slot = s := inv.nodup slot s hslot hs hocc2 hocc
        (by rw [hkey2, hkey])
      rw [cmd_ttl_found store key now slot hpe, hss]
      rw [if_neg hexp]
      have hEgt : now < (store.entries.getD s default).expire_at := by
        unfold is_expired at hlive
        rw [if_neg hexp] at hlive
        rw [decide_eq_false_iff_not] at hlive
        omega
      have hw1 : wrap64 ((store.entries.getD s default).expire_at - now)
          = (store.entries.getD s default).expire_at - now :=
        wrap64_eq_self (by omega) (by omega)
      rw [hw1]
      rw [if_neg (by omega :
        ¬((store.entries.getD s default).expire_at - now ≤ 0))]
      have hw2 : wrap64
          ((store.entries.getD s default).expire_at - now + 999)
          = (store.entries.getD s default).expire_at - now + 999 :=
        wrap64_eq_self (by omega) (by omega)
      rw [hw2]
      refine ⟨((store.entries.getD s default).expire_at - now
        + 999).tdiv 1000, rfl, ?_, ?_⟩
      · rw [Int.tdiv_eq_ediv (by omega) (by omega)]
        omega
      · rw [Int.tdiv_eq_ediv (by omega) (by omega)]
        omega


set_option maxRecDepth 20000 in
theorem c7_ttl_witness :
    ((42 : Nat) < (ht_set_expire (ht_set ht_create [107] [118] 0).2 [107] 1500 0).capacity ∧
      ((ht_set_expire (ht_set ht_create [107] [118] 0).2 [107] 1500 0).entries.getD 42 default).state = EntryState.occupied ∧
      ((ht_set_expire (ht_set ht_create [107] [118] 0).2 [107] 1500 0).entries.getD 42 default).key = [107] ∧
      is_expired ((ht_set_expire (ht_set ht_create [107] [118] 0).2 [107] 1500 0).entries.getD 42 default) 0 = false ∧
      ((ht_set_expire (ht_set ht_create [107] [118] 0).2 [107] 1500 0).entries.getD 42 default).expire_at ≠ -1 ∧
      ((ht_set_expire (ht_set ht_create [107] [118] 0).2 [107] 1500 0).entries.getD 42 default).expire_at - 0 ≤ 2 ^ 63 - 1000) ∧
    (∃ q, cmd_ttl (ht_set_expire (ht_set ht_create [107] [118] 0).2 [107] 1500 0) [107] 0 = (RespValue.integer q, (ht_set_expire (ht_set ht_create [107] [118] 0).2 [107] 1500 0)) ∧
      1000 * (q - 1) < ((ht_set_expire (ht_set ht_create [107] [118] 0).2 [107] 1500 0).entries.getD 42 default).expire_at - 0 ∧
      ((ht_set_expire (ht_set ht_create [107] [118] 0).2 [107] 1500 0).entries.getD 42 default).expire_at - 0 ≤ 1000 * q) :=
  ⟨⟨by decide, by decide, by decide, by decide, by decide, by decide⟩,
    (c7_ttl (ht_set_expire (ht_set ht_create [107] [118] 0).2 [107] 1500 0)
        (Reachable.hsetExpire [107] 1500 0
          (Reachable.hset [107] [118] 0 Reachable.create)) [107] 0).2.2.2
      42 (by decide) (by decide) (by decide) (by decide) (by decide)
      (by decide)⟩

set_option maxRecDepth 20000 in
/-- Counterexample to C7 as stated: at the reachable table whose key
`[107]` is live with `expire_at = 2^63 - 1`, a TTL lookup at `now = 0`
has `remaining_ms = 2^63 - 1 > 0`, so under the claim the reply is
`ceil(remaining_ms / 1000) = 9223372036854776`; but cmd_ttl computes
`remaining_ms + 999` in `int64_t`, which wraps to a negative number,
and the reply is `Integer(-9223372036854774)`. -/
theorem c7_counterexample :
    is_expired ((ht_set_expire (ht_set ht_create [107] [118] 0).2 [107]
      (2 ^ 63 - 1) 0).entries.getD 42 default) 0 = false ∧
    ((ht_set_expire (ht_set ht_create [107] [118] 0).2 [107]
      (2 ^ 63 - 1) 0).entries.getD 42 default).expire_at - 0
      = 2 ^ 63 - 1 ∧
    ((2 ^ 63 - 1 : Int) + 999) / 1000 = 9223372036854776 ∧
    (cmd_ttl (ht_set_expire (ht_set ht_create [107] [118] 0).2 [107]
      (2 ^ 63 - 1) 0) [107] 0).1
      = RespValue.integer (-9223372036854774) := by
  refine ⟨by decide, by decide, by decide, ?_⟩
  rfl


/-- `cmd_incr` of commands.c. -/
def cmd_incr (store : Hashtable) (key : List Nat) (now : Int) :
    RespValue × Hashtable :=
  match ht_get store key now with
  | (val?, st1) =>
    match val? with
    | some v =>
      match ht_get_expire st1 key now with
      | (expire_at, st2) =>
        match parse_int64 v with
        | none => (.respError errNotInteger, st2)
        | some current =>
          if current = i64Max then (.respError errNotInteger, st2)
          else
            let c2 := current + 1
            let st3 := (ht_set st2 key (intDec c2) now).2
            let st4 := if expire_at ≠ -1 then
                ht_set_expire st3 key expire_at now
              else st3
            (.integer c2, st4)
    | none =>
      -- absent key: current = 0 and expire_at = -1, so the overflow
      -- test (0 == INT64_MAX) cannot fire and no expiry is restored
      let c2 : Int := 0 + 1
      (.integer c2, (ht_set st1 key (intDec c2) now).2)

/-- `cmd_decr` of commands.c. -/
def cmd_decr (store : Hashtable) (key : List Nat) (now : Int) :
    RespValue × Hashtable :=
  match ht_get store key now with
  | (val?, st1) =>
    match val? with
    | some v =>
      match ht_get_expire st1 key now with
      | (expire_at, st2) =>
        match parse_int64 v with
        | none => (.respError errNotInteger, st2)
        | some current =>
          if current = i64Min then (.respError errNotInteger, st2)
          else
            let c2 := current - 1
            let st3 := (ht_set st2 key (intDec c2) now).2
            let st4 := if expire_at ≠ -1 then
                ht_set_expire st3 key expire_at now
              else st3
            (.integer c2, st4)
    | none =>
      -- absent key: current = 0 and expire_at = -1, so the underflow
      -- test (0 == INT64_MIN) cannot fire and no expiry is restored
      let c2 : Int := 0 - 1
      (.integer c2, (ht_set st1 key (intDec c2) now).2)

/-- `toupper` on a byte. -/
def toUpperB (b : Nat) : Nat := if 97 ≤ b ∧ b ≤ 122 then b - 32 else b

/-- `cmd_set` of commands.c. -/
def cmd_set (store : Hashtable) (args : List (List Nat)) (now : Int) :
    RespValue × Hashtable :=
  let key := args.getD 1 []
  let value := args.getD 2 []
  let st1 := (ht_set store key value now).2
  if args.length = 5 then
    let ex := args.getD 3 []
    let exUp := if ex.length = 2 then
        [toUpperB (ex.getD 0 0), toUpperB (ex.getD 1 0)]
      else []
    if exUp = strBytes "EX" then
      match parse_int64 (args.getD 4 []) with
      | none =>
        (.respError (strBytes "ERR invalid expire time in 'set' command"),
          (ht_delete st1 key now).2)
      | some seconds =>
        if seconds ≤ 0 then
          (.respError
            (strBytes "ERR invalid expire time in 'set' command"),
            (ht_delete st1 key now).2)
        else
          (.simpleString (strBytes "OK"),
            ht_set_expire st1 key (wrap64 (now + wrap64 (seconds * 1000)))
              now)
    else
      (.respError (strBytes "ERR syntax error"), (ht_delete st1 key now).2)
  else (.simpleString (strBytes "OK"), st1)

/-- The `command_table` rows `(name, min_args, max_args)`; `-1` means
no upper bound. -/
def command_table : List (List Nat × Nat × Int) :=
  [ (strBytes "PING", 1, 2), (strBytes "ECHO", 2, 2),
    (strBytes "SET", 3, 5), (strBytes "GET", 2, 2),
    (strBytes "DEL", 2, -1), (strBytes "EXISTS", 2, -1),
    (strBytes "EXPIRE", 3, 3), (strBytes "TTL", 2, 2),
    (strBytes "KEYS", 2, 2), (strBytes "TYPE", 2, 2),
    (strBytes "INCR", 2, 2), (strBytes "DECR", 2, 2) ]

/-- The arity test of `dispatch_command`: reject `argc < min_args`,
reject `max_args != -1 && argc > max_args`. -/
def arityAccepts (minA : Nat) (maxA : Int) (argc : Nat) : Bool :=
  decide (minA ≤ argc)
    && (decide (maxA = -1) || decide ((argc : Int) ≤ maxA))

/-- After `ht_set`, some slot of the resulting table holds exactly the
occupied entry `setEntry key value`. -/
theorem ht_set_stores (ht : Hashtable) (key value : List Nat) (now : Int)
    (inv : HtInv ht) :
    ∃ s, s < (ht_set ht key value now).2.capacity ∧
      (ht_set ht key value now).2.entries.getD s default
        = setEntry key value := by
  rw [ht_set_eq]
  set ht1 := if loadFactorReached ht then ht_resize ht else ht with hht1
  have inv1 : HtInv ht1 := by
    rw [hht1]
    by_cases hLF : loadFactorReached ht = true
    · rw [if_pos hLF]; exact (resize_spec ht inv).1
    · rw [if_neg hLF]; exact inv
  have hp := probe_spec ht1 key now inv1
  rcases hpe : probe ht1 key now with ⟨found, slot, ht2⟩
  rw [hpe] at hp
  have inv2 : HtInv ht2 := post_inv ht1 key now found slot ht2 inv1 hp
  obtain ⟨hcap, hused, hlen, htr, hfa⟩ := hp
  cases found
  · obtain ⟨_, hslot, _, _, _⟩ := hfa rfl
    refine ⟨slot, ?_, ?_⟩
    · show slot < ht2.capacity
      rw [hcap]; exact hslot
    · show (ht2.entries.set slot (setEntry key value)).getD slot default
        = setEntry key value
      apply getD_set_self
      rw [inv2.len, hcap]; exact hslot
  · obtain ⟨_, hslot, _, _, _⟩ := htr rfl
    refine ⟨slot, ?_, ?_⟩
    · show slot < ht2.capacity
      rw [hcap]; exact hslot
    · show (ht2.entries.set slot (setEntry key value)).getD slot default
        = setEntry key value
      apply getD_set_self
      rw [inv2.len, hcap]; exact hslot

/-- C10: SET dispatched with exactly four array elements passes the
arity bounds (3..5) of the command table, stores the value under the
key, ignores the trailing token, and replies SimpleString "OK". -/
theorem c10_set_argc4 (store : Hashtable) (h : Reachable store)
    (args : List (List Nat)) (now : Int) (hargs : args.length = 4) :
    arityAccepts 3 5 4 = true ∧
    (strBytes "SET", 3, (5 : Int)) ∈ command_table ∧
    (cmd_set store args now).1 = RespValue.simpleString (strBytes "OK") ∧
    (cmd_set store args now).2
      = (ht_set store (args.getD 1 []) (args.getD 2 []) now).2 ∧
    ∃ s, s < (cmd_set store args now).2.capacity ∧
      (cmd_set store args now).2.entries.getD s default
        = setEntry (args.getD 1 []) (args.getD 2 []) := by
  have inv := reachable_inv store h
  have hns : ¬(args.length = 5) := by omega
  have hcs : cmd_set store args now
      = (RespValue.simpleString (strBytes "OK"),
        (ht_set store (args.getD 1 []) (args.getD 2 []) now).2) := by
    unfold cmd_set
    rw [if_neg hns]
  refine ⟨by decide, by decide, by rw [hcs], by rw [hcs], ?_⟩
  rw [hcs]
  exact ht_set_stores store (args.getD 1 []) (args.getD 2 []) now inv

set_option maxRecDepth 20000 in
theorem c10_set_argc4_witness :
    ([strBytes "SET", [107], [118], strBytes "EX"] :
      List (List Nat)).length = 4 ∧
    (arityAccepts 3 5 4 = true ∧
      (strBytes "SET", 3, (5 : Int)) ∈ command_table ∧
      (cmd_set ht_create [strBytes "SET", [107], [118], strBytes "EX"]
        0).1 = RespValue.simpleString (strBytes "OK") ∧
      (cmd_set ht_create [strBytes "SET", [107], [118], strBytes "EX"]
        0).2 = (ht_set ht_create [107] [118] 0).2 ∧
      ∃ s, s < (cmd_set ht_create
          [strBytes "SET", [107], [118], strBytes "EX"] 0).2.capacity ∧
        (cmd_set ht_create [strBytes "SET", [107], [118], strBytes "EX"]
          0).2.entries.getD s default = setEntry [107] [118]) :=
  ⟨by decide,
    c10_set_argc4 ht_create Reachable.create
      [strBytes "SET", [107], [118], strBytes "EX"] 0 (by decide)⟩

set_option maxRecDepth 20000 in
/-- C6: the spec requires INCR/DECR to reject stored values outside the
signed 64-bit range, but `parse_int64`'s negative-overflow check has an
empty body (its comment promises a "more robust check below" that does
not exist), so the `int64_t` accumulator wraps: the out-of-range value
"-9223372036854775809" parses as `2^63 - 1`, and DECR on it replies
`Integer(9223372036854775806)`; "-18446744073709551617" parses as `-1`,
and INCR on it replies `Integer(0)` — not the required error. -/
theorem c6_incr_decr_overflow_bug :
    parse_int64 (strBytes "-9223372036854775809") = some i64Max ∧
    (cmd_decr
      ((ht_set ht_create [107] (strBytes "-9223372036854775809") 0).2)
      [107] 0).1 = RespValue.integer 9223372036854775806 ∧
    parse_int64 (strBytes "-18446744073709551617") = some (-1) ∧
    (cmd_incr
      ((ht_set ht_create [107] (strBytes "-18446744073709551617") 0).2)
      [107] 0).1 = RespValue.integer 0 := by
  refine ⟨by decide, ?_, by decide, ?_⟩ <;> rfl

end MiniRedis
